import Mathlib

/-!
Verification of the incremental backup engine in
`AWS-BACKUP/Script/AWS-BACKUP.py` against its specification.

The script is shallowly embedded: the per-file decision loop of `backup_run`
(lines 338-450 of the source), the end-of-run ledger save (463-470), the
best-effort bucket-size estimate (472-487), the scanner
`gather_candidate_files` (268-291) with `path_is_excluded` (189-194), and the
process exit code (649-652).  Filesystem, clock and AWS effects
(`compute_sha256`, `os.path.getsize`, `s3.upload_file`, the
`list_objects_v2` paginator, `save_hash_db_atomic`, `os.walk`, signal
arrival times, and the masking helpers, which the spec scopes out of the
core as presentation-only) are parameters of an explicit environment record,
so the engine itself is a pure function of the environment.
Python dicts (`persisted_hashes`, `updated_hashes`, `content_hash_to_s3key`)
are embedded as `String → Option String`; float time arithmetic as `Rat`.
-/

namespace AWSBackUp

/-- A candidate file produced by the scanner: `gather_candidate_files`
appends pairs `(os.path.normcase(os.path.abspath(file_path)), drive_name)`
(line 290), so `absPath` is already a normalized absolute path. -/
structure Candidate where
  absPath : String
  driveName : String
deriving DecidableEq, Repr

/-- Per-file outcome of one iteration of `backup_run`'s loop, read off the
branch the source takes: `uploaded`/`dryUploaded` for the transfer branch
(lines 392-430), `skippedDuplicateContent` for the same-run content-dedup
branch (379-385), `skippedUnchanged` for the ledger-hit branch (387-390),
and the spec's `Failed(reason)` split by failure site: `failedHash` for the
`compute_sha256` except-branch (371-377), `failedUpload` for the
`s3.upload_file` except-branch (431-434). -/
inductive Outcome where
  | uploaded (key : String)
  | dryUploaded (key : String)
  | skippedDuplicateContent (existingKey : String)
  | skippedUnchanged
  | failedHash (reason : String)
  | failedUpload (reason : String)
deriving DecidableEq, Repr

/-- The spec's `Failed` outcomes (either failure site). -/
def Outcome.isFailed : Outcome → Bool
  | .failedHash _ => true
  | .failedUpload _ => true
  | _ => false

/-- Calls the engine issues to the remote object store. -/
inductive RemoteCall where
  | uploadFile (path key : String)
  | listObjects
deriving DecidableEq, Repr

/-- Entries of `run_manifest["errors"]` (which line 504 copies into the
report): per-file entries `{"path": masked_path, "error": e}` appended at
lines 376 and 434, and the ledger-save entry `{"save_hash_db": e}` appended
at line 470. -/
inductive ErrEntry where
  | file (maskedPath err : String)
  | saveDb (err : String)
deriving DecidableEq, Repr

/-- One element of `run_manifest["progress_samples"]` (lines 444-450). -/
structure ProgressSample where
  processedFiles : Nat
  elapsedSeconds : Rat
  estimatedTotalSeconds : Rat
  estimatedRemainingSeconds : Rat

/-- Environment of effects consumed by `backup_run`.  `idx` arguments are
the 1-based loop index of `enumerate(candidates, start=1)`, used to index
reads of the ambient clock (`time.time()`, `datetime.utcnow()`), which the
source performs once per file. `interruptTime` is the index of the first
loop-iteration check (line 339) at which the signal-handler flag
`_interrupted` is observed set; `none` means no signal arrives before the
end-of-run flag read (lines 461, 509). -/
structure Env where
  /-- `compute_sha256(path)`: hex digest, or the exception message. -/
  hashResult : String → Except String String
  /-- `s3.upload_file(path, ..., key)`: `none` on success, exception message on failure. -/
  uploadResult : String → String → Option String
  /-- `os.path.getsize(path)`: `none` when it raises (source then uses 0). -/
  fileSize : String → Option Nat
  /-- `os.path.relpath(abs_path, matched_source)` with its basename fallbacks (lines 352-366). -/
  relpathOf : String → String
  /-- `datetime.utcnow().strftime("%Y/%m/%d")` as read at iteration `idx` (line 368). -/
  datePartAt : Nat → String
  /-- `time.time() - start_time` as read at iteration `idx` (line 438). -/
  elapsedAt : Nat → Rat
  /-- First loop check that observes `_interrupted`, if any. -/
  interruptTime : Option Nat
  /-- `save_hash_db_atomic`: `none` on success, exception message on failure. -/
  saveResult : Option String
  /-- Total object bytes from the `list_objects_v2` paginator, `none` when listing raises. -/
  listBucket : Option Nat
  /-- `mask_path_for_output` (presentation-only, spec section 1). -/
  maskPath : String → String
  /-- `mask_s3_key` (presentation-only, spec section 1). -/
  maskKey : String → String

/-- Value of the `_interrupted` flag at the loop check of iteration `idx`. -/
def interruptFlagAt (env : Env) (idx : Nat) : Bool :=
  match env.interruptTime with
  | some t => decide (t ≤ idx)
  | none => false

/-- The destination key of line 369:
`f"{today_prefix}/{drive_name}/{relpath}".replace("\\", "/")` — a
single-character replacement, embedded charwise. -/
def replaceBackslashes (s : String) : String :=
  String.mk (s.toList.map (fun ch => if ch = '\\' then '/' else ch))

/-- `s3_key` computed for candidate `c` at loop iteration `idx`. -/
def s3KeyFor (env : Env) (idx : Nat) (c : Candidate) : String :=
  replaceBackslashes (env.datePartAt idx ++ "/" ++ c.driveName ++ "/" ++ env.relpathOf c.absPath)

/-- Python dict update `m[k] = v` on a map embedded as a function. -/
def updateMap (m : String → Option String) (k v : String) : String → Option String :=
  fun q => if q = k then some v else m q

/-- `PRICE_PER_GB_DEEP_ARCHIVE = 0.00099` (line 121). -/
def PRICE_PER_GB_DEEP_ARCHIVE : Rat := 99 / 100000

/-- Fixed-point rendering with two decimals, the embedding of Python's
`f"{x:.2f}"` (rounding is half-up on the scaled rational; Python's float
formatting rounds the nearest double half-even — the difference is
irrelevant to every property proved here, which never evaluates this). -/
def formatFixed2 (q : Rat) : String :=
  let n : Int := Int.fdiv (2 * (q * 100).num + ((q * 100).den : Int)) (2 * ((q * 100).den : Int))
  let sign := if n < 0 then "-" else ""
  let a := n.natAbs
  let frac := a % 100
  let fracStr := if frac < 10 then "0" ++ toString frac else toString frac
  sign ++ toString (a / 100) ++ "." ++ fracStr

/-- Unit loop of `human_readable_size` (lines 177-182): stop when below
1024 or at the last unit `"TB"`, otherwise divide by 1024 and move on. -/
def humanReadableSizeAux : List String → Rat → String
  | [], q => formatFixed2 q ++ " TB"
  | u :: us, q =>
    if q < 1024 ∨ us = [] then formatFixed2 q ++ " " ++ u
    else humanReadableSizeAux us (q / 1024)

/-- `human_readable_size(bytes_count)` (lines 177-182). -/
def human_readable_size (q : Rat) : String :=
  humanReadableSizeAux ["B", "KB", "MB", "GB", "TB"] q

/-- Mutable state of `backup_run`'s per-file loop: the in-memory ledger copy
`updated_hashes` (line 299), the same-run dedup map `content_hash_to_s3key`
(333), and the accumulators of lines 301-303, 334-336, 389, 444. -/
structure RunState where
  updatedHashes : String → Option String
  contentHashToKey : String → Option String
  uploadedKeys : List String
  duplicateSkips : List (String × String)
  errors : List ErrEntry
  unchangedList : List String
  progressSamples : List ProgressSample
  seenPaths : List String
  processedFiles : Nat
  processedBytes : Nat

/-- The body of `backup_run`'s per-file loop (lines 343-450), minus the
interrupt check, which lives in `runLoop`.  Returns the successor state, the
outcome for this candidate (`none` for the defensive `seen_paths` skip of
lines 343-344, which records nothing), and the remote calls issued.
Branch order is the source's: seen-skip, hash (with except-branch),
same-run duplicate, unchanged-vs-ledger, then dry/real upload; the
`processed_bytes` increment (line 436) and the progress sample (438-450)
run only when control reaches past the upload branch, because the three
skip branches `continue`. -/
def processFile (env : Env) (dryRun : Bool) (persisted : String → Option String)
    (totalFiles idx : Nat) (st : RunState) (c : Candidate) :
    RunState × Option Outcome × List RemoteCall :=
  if c.absPath ∈ st.seenPaths then (st, none, [])
  else
    let seen' := c.absPath :: st.seenPaths
    let pf := st.processedFiles + 1
    let fileSize := (env.fileSize c.absPath).getD 0
    let key := s3KeyFor env idx c
    match env.hashResult c.absPath with
    | .error e =>
      ({ st with
          seenPaths := seen'
          processedFiles := pf
          errors := st.errors ++ [.file (env.maskPath c.absPath) e] },
        some (.failedHash e), [])
    | .ok fileHash =>
      match st.contentHashToKey fileHash with
      | some existingKey =>
        ({ st with
            seenPaths := seen'
            processedFiles := pf
            duplicateSkips := st.duplicateSkips ++ [(env.maskPath c.absPath, env.maskKey existingKey)]
            updatedHashes := updateMap st.updatedHashes c.absPath fileHash },
          some (.skippedDuplicateContent existingKey), [])
      | none =>
        if persisted c.absPath = some fileHash then
          ({ st with
              seenPaths := seen'
              processedFiles := pf
              unchangedList := st.unchangedList ++ [env.maskPath c.absPath] },
            some .skippedUnchanged, [])
        else
          let step : RunState × Option Outcome × List RemoteCall :=
            if dryRun then
              ({ st with
                  seenPaths := seen'
                  processedFiles := pf
                  uploadedKeys := st.uploadedKeys ++ [key]
                  contentHashToKey := updateMap st.contentHashToKey fileHash key
                  updatedHashes := updateMap st.updatedHashes c.absPath fileHash },
                some (.dryUploaded key), [])
            else
              match env.uploadResult c.absPath key with
              | none =>
                ({ st with
                    seenPaths := seen'
                    processedFiles := pf
                    uploadedKeys := st.uploadedKeys ++ [key]
                    contentHashToKey := updateMap st.contentHashToKey fileHash key
                    updatedHashes := updateMap st.updatedHashes c.absPath fileHash },
                  some (.uploaded key), [.uploadFile c.absPath key])
              | some e =>
                ({ st with
                    seenPaths := seen'
                    processedFiles := pf
                    errors := st.errors ++ [.file (env.maskPath c.absPath) e] },
                  some (.failedUpload e), [.uploadFile c.absPath key])
          let st2 := step.1
          let st3 := { st2 with processedBytes := st2.processedBytes + fileSize }
          let st4 :=
            if st3.processedFiles > 0 then
              let elapsed := env.elapsedAt idx
              let estTotal :=
                if totalFiles ≠ 0 then elapsed / (st3.processedFiles : Rat) * (totalFiles : Rat)
                else elapsed
              { st3 with progressSamples := st3.progressSamples ++
                  [⟨st3.processedFiles, elapsed, estTotal, max 0 (estTotal - elapsed)⟩] }
            else st3
          (st4, step.2.1, step.2.2)

/-- The `for idx, (abs_path, drive_name) in enumerate(candidates, start=1)`
loop (line 338) with the cooperative interrupt check of lines 339-341:
when the flag is observed the loop breaks, leaving the remaining candidates
unvisited and outcome-less.  Also returns the per-candidate outcome stream
and the remote calls issued, in order. -/
def runLoop (env : Env) (dryRun : Bool) (persisted : String → Option String)
    (totalFiles : Nat) :
    Nat → RunState → List Candidate →
      RunState × List (Candidate × Option Outcome) × List RemoteCall
  | _, st, [] => (st, [], [])
  | idx, st, c :: rest =>
    if interruptFlagAt env idx then (st, [], [])
    else
      let r1 := processFile env dryRun persisted totalFiles idx st c
      let r2 := runLoop env dryRun persisted totalFiles (idx + 1) r1.1 rest
      (r2.1, (c, r1.2.1) :: r2.2.1, r1.2.2 ++ r2.2.2)

/-- Initial loop state: `updated_hashes = dict(persisted_hashes)` (line 299),
everything else empty/zero (lines 301-303, 333-336). -/
def initState (persisted : String → Option String) : RunState :=
  { updatedHashes := persisted
    contentHashToKey := fun _ => none
    uploadedKeys := []
    duplicateSkips := []
    errors := []
    unchangedList := []
    progressSamples := []
    seenPaths := []
    processedFiles := 0
    processedBytes := 0 }

/-- Result of one `backup_run`, combining fields of `report` (lines 501-513)
and `run_manifest` that the specification talks about. `savedLedger` is the
content the atomic save durably wrote (`none` when the save was skipped or
failed), `finalLedger` the in-memory `updated_hashes` at run end. -/
structure RunResult where
  outcomes : List (Candidate × Option Outcome)
  finalLedger : String → Option String
  savedLedger : Option (String → Option String)
  saveAttempted : Bool
  manifestErrors : List ErrEntry
  uploadedKeys : List String
  duplicateSkips : List (String × String)
  unchangedList : List String
  progressSamples : List ProgressSample
  interrupted : Bool
  filesProcessed : Nat
  bucketSizeReadable : String
  estimatedMonthlyCostUsd : Rat
  remoteCalls : List RemoteCall

/-- `backup_run(dry_run)` (lines 294-517) from the candidate list onward:
the per-file loop over the deduplicated candidates, then the unconditional
(unless dry-run) ledger save of lines 463-470 — a save failure is appended
to the manifest errors — then the best-effort bucket listing of lines
472-487, skipped in dry-run so `readable_size`/`estimated_cost` keep their
initializers `"unknown"`/`0.0` (lines 473-474).  `total_files` is
`len(candidates)` (line 316); `report["errors"]` is the manifest error list
(line 504) and `report["interrupted"]` the flag at end of run (line 509). -/
def backup_run (env : Env) (dryRun : Bool) (persisted : String → Option String)
    (candidates : List Candidate) : RunResult :=
  let total := candidates.length
  let r := runLoop env dryRun persisted total 1 (initState persisted) candidates
  let st := r.1
  let saveStep : Bool × Option (String → Option String) × List ErrEntry :=
    if dryRun then (false, none, st.errors)
    else
      match env.saveResult with
      | none => (true, some st.updatedHashes, st.errors)
      | some e => (true, none, st.errors ++ [.saveDb e])
  let bucketStep : String × Rat × List RemoteCall :=
    if dryRun then ("unknown", 0, [])
    else
      match env.listBucket with
      | some totalBytesBucket =>
        (human_readable_size (totalBytesBucket : Rat),
          ((totalBytesBucket : Rat) / (1024 ^ 3)) * PRICE_PER_GB_DEEP_ARCHIVE,
          [RemoteCall.listObjects])
      | none => ("unknown", 0, [RemoteCall.listObjects])
  { outcomes := r.2.1
    finalLedger := st.updatedHashes
    savedLedger := saveStep.2.1
    saveAttempted := saveStep.1
    manifestErrors := saveStep.2.2
    uploadedKeys := st.uploadedKeys
    duplicateSkips := st.duplicateSkips
    unchangedList := st.unchangedList
    progressSamples := st.progressSamples
    interrupted := env.interruptTime.isSome
    filesProcessed := st.processedFiles
    bucketSizeReadable := bucketStep.1
    estimatedMonthlyCostUsd := bucketStep.2.1
    remoteCalls := r.2.2 ++ bucketStep.2.2 }

/-- Exit-code policy of `__main__` (lines 649-652): `2` when the report has
the interrupted flag or a non-empty error list, else `0`. -/
def exit_code (r : RunResult) : Nat :=
  if r.interrupted || !r.manifestErrors.isEmpty then 2 else 0

/-! ### Scanner -/

/-- Substring test on character lists, used to embed Python's `in` on
strings. -/
def listHasSub (sub : List Char) : List Char → Bool
  | [] => sub.isEmpty
  | c :: cs => sub.isPrefixOf (c :: cs) || listHasSub sub cs

/-- `sub in s` for Python strings. -/
def strContains (s sub : String) : Bool := listHasSub sub.toList s.toList

/-- Python's `str.lower()`, embedded charwise (ASCII case folding, which is
what the excluded path fragments and Windows paths exercise). -/
def strLower (s : String) : String := String.mk (s.toList.map Char.toLower)

/-- `EXCLUDE_PATH_PARTS` (lines 254-265), the raw substrings matched against
full paths. -/
def EXCLUDE_PATH_PARTS : List String :=
  ["\\Windows", "\\Program Files", "\\Program Files (x86)",
   "\\System Volume Information", "\\$Recycle.Bin", "\\hiberfil.sys",
   "\\pagefile.sys", "\\SwapFile.sys", "\\Recovery", "\\PerfLogs"]

/-- `path_is_excluded(full_path, exclude_parts)` (lines 189-194):
case-insensitive substring match of each part against the normalized
absolute path (`p` here is already the normalized absolute path the scanner
hands around, so only the `.lower()` steps remain). -/
def path_is_excluded (p : String) (excludeParts : List String) : Bool :=
  excludeParts.any (fun part => strContains (strLower p) (strLower part))

/-- Filesystem effects consumed by `gather_candidate_files`.
`allowedRoots root` is the output of
`build_allowed_paths_for_source(root, ALLOWED_FOLDER_NAMES,
EXPLICIT_ABSOLUTE_PATHS)` (lines 197-229, a pure filesystem probe), and
`walkFiles r` the full normalized absolute paths of the files `os.walk(r)`
enumerates, in enumeration order.  The directory pruning of line 285 is
subsumed by the per-file exclusion filter: a file under a directory whose
path contains an excluded substring contains that substring in its own full
path, so pruning only saves traversal. -/
structure ScanEnv where
  sourceDrives : List (String × String)
  rootExists : String → Bool
  allowedRoots : String → List String
  walkFiles : String → List String

/-- `gather_candidate_files()` (lines 268-291): per source drive in mapping
order, skip missing roots, then walk each allowed root and keep the
non-excluded files, each paired with the drive label. -/
def gather_candidate_files (senv : ScanEnv) : List (String × String) :=
  senv.sourceDrives.flatMap fun sd =>
    if senv.rootExists sd.1 then
      (senv.allowedRoots sd.1).flatMap fun r =>
        ((senv.walkFiles r).filter (fun f => !path_is_excluded f EXCLUDE_PATH_PARTS)).map
          (fun f => (f, sd.2))
    else []

/-- `candidates = list(dict.fromkeys(candidates))` (line 315): first-occurrence
deduplication of the `(path, drive)` pairs, preserving order. -/
def dedupFirstOcc (xs : List (String × String)) : List (String × String) :=
  xs.foldl (fun acc x => if x ∈ acc then acc else acc ++ [x]) []

/-- Code-point comparison of characters (Python string `<=` compares code
points). -/
def charLe (a b : Char) : Bool := a.toNat ≤ b.toNat

/-- Lexicographic code-point order on strings, Python's string `<=`. -/
def strLeAux : List Char → List Char → Bool
  | [], _ => true
  | _ :: _, [] => false
  | a :: as, b :: bs => if a = b then strLeAux as bs else charLe a b

/-- Python `a <= b` on strings. -/
def strLe (a b : String) : Bool := strLeAux a.toList b.toList

/-- An executable sortedness check for a boolean order. -/
def isSortedBy (le : α → α → Bool) : List α → Bool
  | [] => true
  | [_] => true
  | a :: b :: rest => le a b && isSortedBy le (b :: rest)

section Lemmas

variable {env : Env} {dryRun : Bool} {persisted : String → Option String}
variable {totalFiles idx : Nat} {st : RunState} {c : Candidate}

/-- The defensive seen-skip of lines 343-344 leaves everything untouched. -/
theorem processFile_seen (h : c.absPath ∈ st.seenPaths) :
    processFile env dryRun persisted totalFiles idx st c = (st, none, []) := by
  simp only [processFile, if_pos h]

/-- Hash-failure branch (lines 371-377). -/
theorem processFile_hashError {e : String} (hSeen : c.absPath ∉ st.seenPaths)
    (hHash : env.hashResult c.absPath = .error e) :
    processFile env dryRun persisted totalFiles idx st c =
      ({ st with
          seenPaths := c.absPath :: st.seenPaths
          processedFiles := st.processedFiles + 1
          errors := st.errors ++ [.file (env.maskPath c.absPath) e] },
        some (.failedHash e), []) := by
  simp only [processFile, if_neg hSeen, hHash]

/-- Same-run duplicate-content branch (lines 379-385). -/
theorem processFile_dup {h k : String} (hSeen : c.absPath ∉ st.seenPaths)
    (hHash : env.hashResult c.absPath = .ok h)
    (hMap : st.contentHashToKey h = some k) :
    processFile env dryRun persisted totalFiles idx st c =
      ({ st with
          seenPaths := c.absPath :: st.seenPaths
          processedFiles := st.processedFiles + 1
          duplicateSkips := st.duplicateSkips ++ [(env.maskPath c.absPath, env.maskKey k)]
          updatedHashes := updateMap st.updatedHashes c.absPath h },
        some (.skippedDuplicateContent k), []) := by
  simp only [processFile, if_neg hSeen, hHash, hMap]

/-- Unchanged-vs-ledger branch (lines 387-390). -/
theorem processFile_unchanged {h : String} (hSeen : c.absPath ∉ st.seenPaths)
    (hHash : env.hashResult c.absPath = .ok h)
    (hMap : st.contentHashToKey h = none)
    (hLed : persisted c.absPath = some h) :
    processFile env dryRun persisted totalFiles idx st c =
      ({ st with
          seenPaths := c.absPath :: st.seenPaths
          processedFiles := st.processedFiles + 1
          unchangedList := st.unchangedList ++ [env.maskPath c.absPath] },
        some .skippedUnchanged, []) := by
  simp only [processFile, if_neg hSeen, hHash, hMap, if_pos hLed]

end Lemmas

/-- The progress sample recorded after an upload-stage file (lines 438-450):
`pf` is `processed_files` at that point, always positive there. -/
def mkSample (env : Env) (totalFiles idx pf : Nat) : ProgressSample :=
  let elapsed := env.elapsedAt idx
  let estTotal := if totalFiles ≠ 0 then elapsed / (pf : Rat) * (totalFiles : Rat) else elapsed
  ⟨pf, elapsed, estTotal, max 0 (estTotal - elapsed)⟩

section Lemmas2

variable {env : Env} {dryRun : Bool} {persisted : String → Option String}
variable {totalFiles idx : Nat} {st : RunState} {c : Candidate}

/-- Dry-run transfer branch (lines 392-405) followed by the byte and
progress updates (436-450). -/
theorem processFile_dryUpload {h : String} (hSeen : c.absPath ∉ st.seenPaths)
    (hHash : env.hashResult c.absPath = .ok h)
    (hMap : st.contentHashToKey h = none)
    (hLed : ¬ persisted c.absPath = some h) :
    processFile env true persisted totalFiles idx st c =
      ({ st with
          seenPaths := c.absPath :: st.seenPaths
          processedFiles := st.processedFiles + 1
          uploadedKeys := st.uploadedKeys ++ [s3KeyFor env idx c]
          contentHashToKey := updateMap st.contentHashToKey h (s3KeyFor env idx c)
          updatedHashes := updateMap st.updatedHashes c.absPath h
          processedBytes := st.processedBytes + (env.fileSize c.absPath).getD 0
          progressSamples := st.progressSamples ++
            [mkSample env totalFiles idx (st.processedFiles + 1)] },
        some (.dryUploaded (s3KeyFor env idx c)), []) := by
  simp [processFile, if_neg hSeen, hHash, hMap, if_neg hLed, mkSample]

/-- Successful real upload (lines 407-430) followed by the byte and
progress updates (436-450). -/
theorem processFile_upload {h : String} (hSeen : c.absPath ∉ st.seenPaths)
    (hHash : env.hashResult c.absPath = .ok h)
    (hMap : st.contentHashToKey h = none)
    (hLed : ¬ persisted c.absPath = some h)
    (hUp : env.uploadResult c.absPath (s3KeyFor env idx c) = none) :
    processFile env false persisted totalFiles idx st c =
      ({ st with
          seenPaths := c.absPath :: st.seenPaths
          processedFiles := st.processedFiles + 1
          uploadedKeys := st.uploadedKeys ++ [s3KeyFor env idx c]
          contentHashToKey := updateMap st.contentHashToKey h (s3KeyFor env idx c)
          updatedHashes := updateMap st.updatedHashes c.absPath h
          processedBytes := st.processedBytes + (env.fileSize c.absPath).getD 0
          progressSamples := st.progressSamples ++
            [mkSample env totalFiles idx (st.processedFiles + 1)] },
        some (.uploaded (s3KeyFor env idx c)),
        [.uploadFile c.absPath (s3KeyFor env idx c)]) := by
  simp [processFile, if_neg hSeen, hHash, hMap, if_neg hLed, hUp, mkSample]

/-- Failed real upload (lines 431-434) followed by the byte and progress
updates (436-450): the ledger copy and dedup map are untouched. -/
theorem processFile_uploadFail {h e : String} (hSeen : c.absPath ∉ st.seenPaths)
    (hHash : env.hashResult c.absPath = .ok h)
    (hMap : st.contentHashToKey h = none)
    (hLed : ¬ persisted c.absPath = some h)
    (hUp : env.uploadResult c.absPath (s3KeyFor env idx c) = some e) :
    processFile env false persisted totalFiles idx st c =
      ({ st with
          seenPaths := c.absPath :: st.seenPaths
          processedFiles := st.processedFiles + 1
          errors := st.errors ++ [.file (env.maskPath c.absPath) e]
          processedBytes := st.processedBytes + (env.fileSize c.absPath).getD 0
          progressSamples := st.progressSamples ++
            [mkSample env totalFiles idx (st.processedFiles + 1)] },
        some (.failedUpload e),
        [.uploadFile c.absPath (s3KeyFor env idx c)]) := by
  simp [processFile, if_neg hSeen, hHash, hMap, if_neg hLed, hUp, mkSample]

end Lemmas2

section Lemmas3

variable {env : Env} {dryRun : Bool} {persisted : String → Option String}
variable {totalFiles idx : Nat} {st : RunState} {c : Candidate}
variable {r : RunState × Option Outcome × List RemoteCall}

/-- Joint accounting of one loop-body step, across all branches: which paths
become seen, that the ledger copy is written only at the current path, that
the same-run dedup map only ever gains entries and only at the current
file's hash, that the error list grows exactly on failed outcomes, and that
a file whose hash and (when not dry) upload succeed never yields a failed
outcome. -/
theorem processFile_effects
    (hr : processFile env dryRun persisted totalFiles idx st c = r) :
    ((c.absPath ∈ st.seenPaths → r.1.seenPaths = st.seenPaths)
      ∧ (c.absPath ∉ st.seenPaths → r.1.seenPaths = c.absPath :: st.seenPaths))
    ∧ (c.absPath ∉ st.seenPaths → ∃ o, r.2.1 = some o)
    ∧ (∀ q, r.1.updatedHashes q = st.updatedHashes q ∨ ∃ h, r.1.updatedHashes q = some h)
    ∧ (∀ q, q ≠ c.absPath → r.1.updatedHashes q = st.updatedHashes q)
    ∧ (∀ h k, st.contentHashToKey h = some k → r.1.contentHashToKey h = some k)
    ∧ (∀ h₀, (∀ h', env.hashResult c.absPath = .ok h' → h' ≠ h₀) →
        r.1.contentHashToKey h₀ = st.contentHashToKey h₀)
    ∧ ((∀ o, r.2.1 = some o → o.isFailed = false) → r.1.errors = st.errors)
    ∧ (∀ o, r.2.1 = some o → o.isFailed = true → ∃ en, r.1.errors = st.errors ++ [en])
    ∧ (∀ h, env.hashResult c.absPath = .ok h →
        (dryRun = true ∨ ∀ k, env.uploadResult c.absPath k = none) →
        ∀ o, r.2.1 = some o → o.isFailed = false) := by
  by_cases hSeen : c.absPath ∈ st.seenPaths
  · rw [processFile_seen hSeen] at hr
    subst hr
    refine ⟨⟨fun _ => rfl, fun hc => absurd hSeen hc⟩, fun hc => absurd hSeen hc,
      fun q => Or.inl rfl, fun q _ => rfl, fun h k hk => hk, fun h₀ _ => rfl,
      fun _ => rfl, ?_, ?_⟩
    · intro o ho; exact absurd ho (by simp)
    · intro h _ _ o ho; exact absurd ho (by simp)
  · rcases hh : env.hashResult c.absPath with e | h
    · rw [processFile_hashError hSeen hh] at hr
      subst hr
      refine ⟨⟨fun hc => absurd hc hSeen, fun _ => rfl⟩, fun _ => ⟨_, rfl⟩,
        fun q => Or.inl rfl, fun q _ => rfl, fun h k hk => hk, fun h₀ _ => rfl, ?_, ?_, ?_⟩
      · intro hok
        exact absurd (hok _ rfl) (by simp [Outcome.isFailed])
      · intro o ho _
        exact ⟨_, rfl⟩
      · intro h hh2
        exact absurd hh2 (by simp)
    · rcases hm : st.contentHashToKey h with _ | k
      · by_cases hl : persisted c.absPath = some h
        · rw [processFile_unchanged hSeen hh hm hl] at hr
          subst hr
          refine ⟨⟨fun hc => absurd hc hSeen, fun _ => rfl⟩, fun _ => ⟨_, rfl⟩,
            fun q => Or.inl rfl, fun q _ => rfl, fun h' k' hk => hk, fun h₀ _ => rfl,
            fun _ => rfl, ?_, ?_⟩
          · intro o ho hf
            cases ho
            simp [Outcome.isFailed] at hf
          · intro h' _ _ o ho
            cases ho
            simp [Outcome.isFailed]
        · cases dryRun
          · rcases hu : env.uploadResult c.absPath (s3KeyFor env idx c) with _ | e
            · rw [processFile_upload hSeen hh hm hl hu] at hr
              subst hr
              refine ⟨⟨fun hc => absurd hc hSeen, fun _ => rfl⟩, fun _ => ⟨_, rfl⟩, ?_, ?_, ?_, ?_, fun _ => rfl, ?_, ?_⟩
              · intro q
                by_cases hq : q = c.absPath
                · subst hq; right; exact ⟨h, by simp [updateMap]⟩
                · left; simp [updateMap, hq]
              · intro q hq
                simp [updateMap, hq]
              · intro h' k' hk
                by_cases he : h' = h
                · subst he; rw [hm] at hk; cases hk
                · simpa [updateMap, he] using hk
              · intro h₀ hne
                have hne2 : h₀ ≠ h := Ne.symm (hne h rfl)
                simp [updateMap, hne2]
              · intro o ho hf
                cases ho
                simp [Outcome.isFailed] at hf
              · intro h' _ _ o ho
                cases ho
                simp [Outcome.isFailed]
            · rw [processFile_uploadFail hSeen hh hm hl hu] at hr
              subst hr
              refine ⟨⟨fun hc => absurd hc hSeen, fun _ => rfl⟩, fun _ => ⟨_, rfl⟩,
                fun q => Or.inl rfl, fun q _ => rfl, fun h' k' hk => hk, fun h₀ _ => rfl, ?_, ?_, ?_⟩
              · intro hok
                exact absurd (hok _ rfl) (by simp [Outcome.isFailed])
              · intro o ho _
                exact ⟨_, rfl⟩
              · intro h' hh2 hup o ho
                rcases hup with hd | hup
                · cases hd
                · rw [hup (s3KeyFor env idx c)] at hu; cases hu
          · rw [processFile_dryUpload hSeen hh hm hl] at hr
            subst hr
            refine ⟨⟨fun hc => absurd hc hSeen, fun _ => rfl⟩, fun _ => ⟨_, rfl⟩, ?_, ?_, ?_, ?_, fun _ => rfl, ?_, ?_⟩
            · intro q
              by_cases hq : q = c.absPath
              · subst hq; right; exact ⟨h, by simp [updateMap]⟩
              · left; simp [updateMap, hq]
            · intro q hq
              simp [updateMap, hq]
            · intro h' k' hk
              by_cases he : h' = h
              · subst he; rw [hm] at hk; cases hk
              · simpa [updateMap, he] using hk
            · intro h₀ hne
              have hne2 : h₀ ≠ h := Ne.symm (hne h rfl)
              simp [updateMap, hne2]
            · intro o ho hf
              cases ho
              simp [Outcome.isFailed] at hf
            · intro h' _ _ o ho
              cases ho
              simp [Outcome.isFailed]
      · rw [processFile_dup hSeen hh hm] at hr
        subst hr
        refine ⟨⟨fun hc => absurd hc hSeen, fun _ => rfl⟩, fun _ => ⟨_, rfl⟩, ?_, ?_,
          fun h' k' hk => hk, fun h₀ _ => rfl, fun _ => rfl, ?_, ?_⟩
        · intro q
          by_cases hq : q = c.absPath
          · subst hq; right; exact ⟨h, by simp [updateMap]⟩
          · left; simp [updateMap, hq]
        · intro q hq
          simp [updateMap, hq]
        · intro o ho hf
          cases ho
          simp [Outcome.isFailed] at hf
        · intro h' _ _ o ho
          cases ho
          simp [Outcome.isFailed]

end Lemmas3

section Lemmas4

variable {env : Env} {dryRun : Bool} {persisted : String → Option String}
variable {totalFiles idx : Nat} {st : RunState} {c : Candidate} {q : String}
variable {cs : List Candidate}
variable {r : RunState × List (Candidate × Option Outcome) × List RemoteCall}

/-- A path once seen stays seen across a loop-body step. -/
theorem processFile_seen_mono (hq : q ∈ st.seenPaths) :
    q ∈ (processFile env dryRun persisted totalFiles idx st c).1.seenPaths := by
  obtain ⟨⟨h1, h2⟩, -⟩ := processFile_effects (r := processFile env dryRun persisted totalFiles idx st c) rfl
  by_cases hc : c.absPath ∈ st.seenPaths
  · rw [h1 hc]; exact hq
  · rw [h2 hc]; exact List.mem_cons_of_mem _ hq

/-- A step never rewrites the ledger entry of an already-seen path: the loop
only writes `updated_hashes[abs_path]` for the file it is processing, and a
seen path is skipped outright. -/
theorem processFile_updated_of_seen (hq : q ∈ st.seenPaths) :
    (processFile env dryRun persisted totalFiles idx st c).1.updatedHashes q
      = st.updatedHashes q := by
  by_cases he : q = c.absPath
  · subst he; rw [processFile_seen hq]
  · exact (processFile_effects rfl).2.2.2.1 q he

/-- `_interrupted` is never observed when no signal arrives. -/
theorem interruptFlagAt_none (h : env.interruptTime = none) :
    interruptFlagAt env idx = false := by
  simp [interruptFlagAt, h]

theorem runLoop_nil :
    runLoop env dryRun persisted totalFiles idx st [] = (st, [], []) := rfl

/-- The loop breaks at an observed interrupt, leaving state and streams as
they are (lines 339-341). -/
theorem runLoop_stop (h : interruptFlagAt env idx = true) :
    runLoop env dryRun persisted totalFiles idx st (c :: cs) = (st, [], []) := by
  simp [runLoop, h]

/-- One uninterrupted loop iteration. -/
theorem runLoop_cons (h : interruptFlagAt env idx = false) :
    runLoop env dryRun persisted totalFiles idx st (c :: cs) =
      ((runLoop env dryRun persisted totalFiles (idx + 1)
          (processFile env dryRun persisted totalFiles idx st c).1 cs).1,
        (c, (processFile env dryRun persisted totalFiles idx st c).2.1) ::
          (runLoop env dryRun persisted totalFiles (idx + 1)
            (processFile env dryRun persisted totalFiles idx st c).1 cs).2.1,
        (processFile env dryRun persisted totalFiles idx st c).2.2 ++
          (runLoop env dryRun persisted totalFiles (idx + 1)
            (processFile env dryRun persisted totalFiles idx st c).1 cs).2.2) := by
  simp [runLoop, h]

/-- Loop-level frame facts, by induction over the candidate list (and
holding under interruption, which only truncates the loop): seen paths
persist and their ledger entries are final; every newly seen path comes
from the candidate list; dedup-map entries persist; the dedup map gains no
entry at a hash no processed file produced; ledger entries of paths outside
the candidate list are untouched; ledger entries are never deleted. -/
theorem runLoop_effects
    (hr : runLoop env dryRun persisted totalFiles idx st cs = r) :
    (∀ q, q ∈ st.seenPaths → q ∈ r.1.seenPaths ∧ r.1.updatedHashes q = st.updatedHashes q)
    ∧ (∀ q, q ∈ r.1.seenPaths → q ∈ st.seenPaths ∨ q ∈ cs.map Candidate.absPath)
    ∧ (∀ h k, st.contentHashToKey h = some k → r.1.contentHashToKey h = some k)
    ∧ (∀ h₀, (∀ c' ∈ cs, ∀ h', env.hashResult c'.absPath = .ok h' → h' ≠ h₀) →
        r.1.contentHashToKey h₀ = st.contentHashToKey h₀)
    ∧ (∀ q, (∀ c' ∈ cs, c'.absPath ≠ q) → r.1.updatedHashes q = st.updatedHashes q)
    ∧ (∀ q, (st.updatedHashes q).isSome → (r.1.updatedHashes q).isSome) := by
  induction cs generalizing idx st r with
  | nil =>
    rw [runLoop_nil] at hr
    subst hr
    exact ⟨fun q hq => ⟨hq, rfl⟩, fun q hq => Or.inl hq, fun h k hk => hk,
      fun h₀ _ => rfl, fun q _ => rfl, fun q hq => hq⟩
  | cons c cs ih =>
    by_cases hint : interruptFlagAt env idx = true
    · rw [runLoop_stop hint] at hr
      subst hr
      exact ⟨fun q hq => ⟨hq, rfl⟩, fun q hq => Or.inl hq, fun h k hk => hk,
        fun h₀ _ => rfl, fun q _ => rfl, fun q hq => hq⟩
    · rw [runLoop_cons (Bool.not_eq_true _ ▸ hint)] at hr
      subst hr
      obtain ⟨ih1, ih2, ih3, ih4, ih5, ih6⟩ :=
        @ih (idx + 1) (processFile env dryRun persisted totalFiles idx st c).1 _ rfl
      obtain ⟨⟨pe1a, pe1b⟩, pe2, pe3, pe4, pe5, pe6, pe7, pe8, pe9⟩ :=
        processFile_effects (r := processFile env dryRun persisted totalFiles idx st c) rfl
      refine ⟨?_, ?_, ?_, ?_, ?_, ?_⟩
      · intro q hq
        obtain ⟨hmem, hupd⟩ := ih1 q (processFile_seen_mono hq)
        exact ⟨hmem, hupd.trans (processFile_updated_of_seen hq)⟩
      · intro q hq
        rcases ih2 q hq with hq1 | hq1
        · by_cases hc : c.absPath ∈ st.seenPaths
          · rw [pe1a hc] at hq1; exact Or.inl hq1
          · rw [pe1b hc] at hq1
            rcases List.mem_cons.mp hq1 with he | hq2
            · exact Or.inr (by simp [he])
            · exact Or.inl hq2
        · exact Or.inr (List.mem_map.mpr (by
            obtain ⟨c', hc', he⟩ := List.mem_map.mp hq1
            exact ⟨c', List.mem_cons_of_mem _ hc', he⟩))
      · intro h k hk
        exact ih3 h k (pe5 h k hk)
      · intro h₀ hno
        have h1 := pe6 h₀ (hno c (List.mem_cons_self c cs))
        have h2 := ih4 h₀ (fun c' hc' => hno c' (List.mem_cons_of_mem _ hc'))
        exact h2.trans h1
      · intro q hno
        have h1 := pe4 q (Ne.symm (hno c (List.mem_cons_self c cs)))
        have h2 := ih5 q (fun c' hc' => hno c' (List.mem_cons_of_mem _ hc'))
        exact h2.trans h1
      · intro q hq
        refine ih6 q ?_
        rcases pe3 q with he | ⟨h, he⟩
        · rw [he]; exact hq
        · rw [he]; rfl

end Lemmas4

/-- Number of error-list entries contributed by one outcome. -/
def failWeight (o : Option Outcome) : Nat :=
  match o with
  | some o => if o.isFailed then 1 else 0
  | none => 0

/-- Number of failed outcomes in an outcome stream. -/
def countFailed (outs : List (Candidate × Option Outcome)) : Nat :=
  (outs.map (fun x => failWeight x.2)).sum

section Lemmas5

variable {env : Env} {dryRun : Bool} {persisted : String → Option String}
variable {totalFiles idx : Nat} {st : RunState} {c : Candidate}
variable {cs : List Candidate}
variable {r : RunState × List (Candidate × Option Outcome) × List RemoteCall}

/-- Each loop-body step appends exactly one error entry per failed outcome
(lines 375, 433) and none otherwise. -/
theorem processFile_errors_length :
    (processFile env dryRun persisted totalFiles idx st c).1.errors.length
      = st.errors.length
        + failWeight (processFile env dryRun persisted totalFiles idx st c).2.1 := by
  obtain ⟨-, -, -, -, -, -, pe7, pe8, -⟩ :=
    processFile_effects (r := processFile env dryRun persisted totalFiles idx st c) rfl
  rcases ho : (processFile env dryRun persisted totalFiles idx st c).2.1 with _ | o
  · have he := pe7 (by intro o h; rw [ho] at h; cases h)
    simp [failWeight, he]
  · by_cases hf : o.isFailed = true
    · obtain ⟨en, he⟩ := pe8 o ho hf
      simp [failWeight, he, hf]
    · have he := pe7 (by intro o' h; rw [ho] at h; cases h; simpa using hf)
      simp [failWeight, he, hf]

/-- Error-list growth over the loop is exactly the number of failed
outcomes. -/
theorem runLoop_errors_length
    (hr : runLoop env dryRun persisted totalFiles idx st cs = r) :
    r.1.errors.length = st.errors.length + countFailed r.2.1 := by
  induction cs generalizing idx st r with
  | nil =>
    rw [runLoop_nil] at hr
    subst hr
    simp [countFailed]
  | cons c cs ih =>
    by_cases hint : interruptFlagAt env idx = true
    · rw [runLoop_stop hint] at hr
      subst hr
      simp [countFailed]
    · rw [runLoop_cons (Bool.not_eq_true _ ▸ hint)] at hr
      subst hr
      have h1 := @ih (idx + 1)
        (processFile env dryRun persisted totalFiles idx st c).1 _ rfl
      have h2 := @processFile_errors_length env dryRun persisted totalFiles idx st c
      simp only [countFailed, List.map_cons, List.sum_cons] at h1 ⊢
      omega

/-- With no interruption every candidate is visited and contributes one
entry to the outcome stream. -/
theorem runLoop_length (hNoInt : env.interruptTime = none)
    (hr : runLoop env dryRun persisted totalFiles idx st cs = r) :
    r.2.1.length = cs.length := by
  induction cs generalizing idx st r with
  | nil => rw [runLoop_nil] at hr; subst hr; rfl
  | cons c cs ih =>
    rw [runLoop_cons (interruptFlagAt_none hNoInt)] at hr
    subst hr
    have h1 := @ih (idx + 1)
      (processFile env dryRun persisted totalFiles idx st c).1 _ rfl
    simp [h1]

/-- With no interruption the loop splits over list concatenation. -/
theorem runLoop_append (hNoInt : env.interruptTime = none) {xs ys : List Candidate} :
    runLoop env dryRun persisted totalFiles idx st (xs ++ ys) =
      ((runLoop env dryRun persisted totalFiles (idx + xs.length)
          (runLoop env dryRun persisted totalFiles idx st xs).1 ys).1,
        (runLoop env dryRun persisted totalFiles idx st xs).2.1 ++
          (runLoop env dryRun persisted totalFiles (idx + xs.length)
            (runLoop env dryRun persisted totalFiles idx st xs).1 ys).2.1,
        (runLoop env dryRun persisted totalFiles idx st xs).2.2 ++
          (runLoop env dryRun persisted totalFiles (idx + xs.length)
            (runLoop env dryRun persisted totalFiles idx st xs).1 ys).2.2) := by
  induction xs generalizing idx st with
  | nil => simp [runLoop_nil]
  | cons x xs ih =>
    rw [List.cons_append, runLoop_cons (interruptFlagAt_none hNoInt),
      runLoop_cons (interruptFlagAt_none hNoInt), ih]
    have hx : idx + 1 + xs.length = idx + (xs.length + 1) := by omega
    simp [hx]

/-- In dry-run mode a loop-body step issues no remote call: the transfer
branch logs instead of calling `s3.upload_file` (lines 392-405). -/
theorem processFile_dry_calls :
    (processFile env true persisted totalFiles idx st c).2.2 = [] := by
  by_cases hSeen : c.absPath ∈ st.seenPaths
  · rw [processFile_seen hSeen]
  · rcases hh : env.hashResult c.absPath with e | h
    · rw [processFile_hashError hSeen hh]
    · rcases hm : st.contentHashToKey h with _ | k
      · by_cases hl : persisted c.absPath = some h
        · rw [processFile_unchanged hSeen hh hm hl]
        · rw [processFile_dryUpload hSeen hh hm hl]
      · rw [processFile_dup hSeen hh hm]

/-- In dry-run mode the whole loop issues no remote call. -/
theorem runLoop_dry_calls
    (hr : runLoop env true persisted totalFiles idx st cs = r) :
    r.2.2 = [] := by
  induction cs generalizing idx st r with
  | nil => rw [runLoop_nil] at hr; subst hr; rfl
  | cons c cs ih =>
    by_cases hint : interruptFlagAt env idx = true
    · rw [runLoop_stop hint] at hr; subst hr; rfl
    · rw [runLoop_cons (Bool.not_eq_true _ ▸ hint)] at hr
      subst hr
      have h1 := @ih (idx + 1)
        (processFile env true persisted totalFiles idx st c).1 _ rfl
      simp [h1, processFile_dry_calls]

/-- Over a candidate list with pairwise-distinct, previously unseen paths
whose hashes succeed and (unless dry) whose uploads succeed, every visited
candidate gets an outcome and none of the outcomes is failed. -/
theorem runLoop_nonfailed
    (hND : (cs.map Candidate.absPath).Nodup)
    (hNS : ∀ c' ∈ cs, c'.absPath ∉ st.seenPaths)
    (hOK : ∀ c' ∈ cs, (∃ h, env.hashResult c'.absPath = .ok h)
        ∧ (dryRun = true ∨ ∀ k, env.uploadResult c'.absPath k = none))
    (hr : runLoop env dryRun persisted totalFiles idx st cs = r) :
    ∀ x ∈ r.2.1, ∃ o, x.2 = some o ∧ o.isFailed = false := by
  induction cs generalizing idx st r with
  | nil => rw [runLoop_nil] at hr; subst hr; intro x hx; cases hx
  | cons c cs ih =>
    by_cases hint : interruptFlagAt env idx = true
    · rw [runLoop_stop hint] at hr; subst hr; intro x hx; cases hx
    · rw [runLoop_cons (Bool.not_eq_true _ ▸ hint)] at hr
      subst hr
      obtain ⟨⟨pe1a, pe1b⟩, pe2, pe3, pe4, pe5, pe6, pe7, pe8, pe9⟩ :=
        processFile_effects (r := processFile env dryRun persisted totalFiles idx st c) rfl
      have hcns : c.absPath ∉ st.seenPaths := hNS c (List.mem_cons_self c cs)
      intro x hx
      rcases List.mem_cons.mp hx with he | hx2
      · subst he
        obtain ⟨o, ho⟩ := pe2 hcns
        obtain ⟨⟨h, hh⟩, hu⟩ := hOK c (List.mem_cons_self c cs)
        exact ⟨o, ho, pe9 h hh hu o ho⟩
      · refine @ih (idx + 1)
          (processFile env dryRun persisted totalFiles idx st c).1 _ ?_ ?_ ?_ rfl x hx2
        · exact (List.nodup_cons.mp (by simpa using hND)).2
        · intro c' hc'
          rw [pe1b hcns]
          intro hmem
          rcases List.mem_cons.mp hmem with he2 | he2
          · have : c.absPath ∉ cs.map Candidate.absPath :=
              (List.nodup_cons.mp (by simpa using hND)).1
            exact this (he2 ▸ List.mem_map_of_mem Candidate.absPath hc')
          · exact hNS c' (List.mem_cons_of_mem _ hc') he2
        · exact fun c' hc' => hOK c' (List.mem_cons_of_mem _ hc')

end Lemmas5

section Projections

variable {env : Env} {dryRun : Bool} {persisted : String → Option String}
variable {cs : List Candidate}

theorem backup_run_outcomes :
    (backup_run env dryRun persisted cs).outcomes
      = (runLoop env dryRun persisted cs.length 1 (initState persisted) cs).2.1 := rfl

theorem backup_run_finalLedger :
    (backup_run env dryRun persisted cs).finalLedger
      = (runLoop env dryRun persisted cs.length 1 (initState persisted) cs).1.updatedHashes := rfl

theorem backup_run_uploadedKeys :
    (backup_run env dryRun persisted cs).uploadedKeys
      = (runLoop env dryRun persisted cs.length 1 (initState persisted) cs).1.uploadedKeys := rfl

theorem backup_run_interrupted :
    (backup_run env dryRun persisted cs).interrupted = env.interruptTime.isSome := rfl

theorem backup_run_savedLedger_ok (h : env.saveResult = none) :
    (backup_run env false persisted cs).savedLedger
      = some (runLoop env false persisted cs.length 1 (initState persisted) cs).1.updatedHashes := by
  simp [backup_run, h]

theorem backup_run_manifestErrors_dry :
    (backup_run env true persisted cs).manifestErrors
      = (runLoop env true persisted cs.length 1 (initState persisted) cs).1.errors := by
  simp [backup_run]

theorem backup_run_manifestErrors_saveOk (h : env.saveResult = none) :
    (backup_run env false persisted cs).manifestErrors
      = (runLoop env false persisted cs.length 1 (initState persisted) cs).1.errors := by
  simp [backup_run, h]

theorem backup_run_manifestErrors_saveFail {e : String} (h : env.saveResult = some e) :
    (backup_run env false persisted cs).manifestErrors
      = (runLoop env false persisted cs.length 1 (initState persisted) cs).1.errors
        ++ [.saveDb e] := by
  simp [backup_run, h]

end Projections

/-! ### Witness environments: concrete instantiations used to evaluate the
engine on closed inputs. -/

/-- A benign environment: every file hashes to `"H1"`, uploads succeed, no
signal, save succeeds, listing fails. -/
def envW : Env :=
  { hashResult := fun _ => .ok "H1"
    uploadResult := fun _ _ => none
    fileSize := fun _ => some 10
    relpathOf := fun p => p
    datePartAt := fun _ => "2026/10/12"
    elapsedAt := fun _ => 0
    interruptTime := none
    saveResult := none
    listBucket := none
    maskPath := fun p => p
    maskKey := fun k => k }

/-- Empty persisted ledger. -/
def pwEmpty : String → Option String := fun _ => none

/-- Persisted ledger mapping every path to `"H1"`. -/
def pwH1 : String → Option String := fun _ => some "H1"

/-- Persisted ledger with a single stale entry for a path no candidate has. -/
def pwOld : String → Option String := fun q => if q = "old" then some "H0" else none

/-- Like `envW` but path `"b"` is unreadable: hashing it raises. -/
def envFailB : Env :=
  { envW with hashResult := fun p => if p = "b" then .error "unreadable" else .ok "H1" }

/-! ### Claims -/

/-- C3: a candidate whose freshly computed hash equals the ledger's existing
hash for that exact path, and whose content was not already uploaded
earlier in the run, yields `SkippedUnchanged`, leaves the in-memory ledger
copy entirely untouched, and issues no remote-store call. -/
theorem c3_unchanged_skip (env : Env) (dryRun : Bool)
    (persisted : String → Option String) (totalFiles idx : Nat) (st : RunState)
    (c : Candidate) (h : String)
    (hSeen : c.absPath ∉ st.seenPaths)
    (hHash : env.hashResult c.absPath = .ok h)
    (hDup : st.contentHashToKey h = none)
    (hLed : persisted c.absPath = some h) :
    (processFile env dryRun persisted totalFiles idx st c).2.1 = some .skippedUnchanged
    ∧ (processFile env dryRun persisted totalFiles idx st c).1.updatedHashes
        = st.updatedHashes
    ∧ (processFile env dryRun persisted totalFiles idx st c).2.2 = [] := by
  rw [processFile_unchanged hSeen hHash hDup hLed]
  exact ⟨rfl, rfl, rfl⟩

/-- Witness for C3 at a concrete input. -/
theorem c3_unchanged_skip_witness :
    ((⟨"a", "M"⟩ : Candidate).absPath ∉ (initState pwH1).seenPaths
      ∧ envW.hashResult "a" = .ok "H1"
      ∧ (initState pwH1).contentHashToKey "H1" = none
      ∧ pwH1 "a" = some "H1")
    ∧ (processFile envW false pwH1 1 1 (initState pwH1) ⟨"a", "M"⟩).2.1
        = some .skippedUnchanged
    ∧ (processFile envW false pwH1 1 1 (initState pwH1) ⟨"a", "M"⟩).1.updatedHashes
        = (initState pwH1).updatedHashes
    ∧ (processFile envW false pwH1 1 1 (initState pwH1) ⟨"a", "M"⟩).2.2 = [] :=
  ⟨⟨by decide, rfl, rfl, rfl⟩,
    c3_unchanged_skip envW false pwH1 1 1 (initState pwH1) ⟨"a", "M"⟩ "H1"
      (by decide) rfl rfl rfl⟩

/-- C7: the ledger save is attempted at run end whenever dry-run mode is
off — for every environment, hence in particular under interruption and
per-file errors — and in dry-run mode the save is skipped and nothing is
durably written. -/
theorem c7_save_policy (env : Env) (persisted : String → Option String)
    (cs : List Candidate) :
    (backup_run env false persisted cs).saveAttempted = true
    ∧ (backup_run env true persisted cs).saveAttempted = false
    ∧ (backup_run env true persisted cs).savedLedger = none := by
  refine ⟨?_, rfl, rfl⟩
  rcases h : env.saveResult with _ | e <;> simp [backup_run, h]

/-- C10: a dry run never issues the remote listing call, and its report
carries the initializers `"unknown"` and `0.0` for bucket size and cost. -/
theorem c10_dry_run_no_listing (env : Env) (persisted : String → Option String)
    (cs : List Candidate) :
    (backup_run env true persisted cs).bucketSizeReadable = "unknown"
    ∧ (backup_run env true persisted cs).estimatedMonthlyCostUsd = 0
    ∧ RemoteCall.listObjects ∉ (backup_run env true persisted cs).remoteCalls := by
  have hcalls := runLoop_dry_calls
    (rfl : runLoop env true persisted cs.length 1 (initState persisted) cs = _)
  refine ⟨rfl, rfl, ?_⟩
  show RemoteCall.listObjects ∉
    (runLoop env true persisted cs.length 1 (initState persisted) cs).2.2 ++ _
  rw [hcalls]
  simp

/-- C9: with the save succeeding in non-dry-run mode, the durably saved
ledger keeps every path the loaded ledger had (entries are only added or
overwritten, never removed), and paths outside the candidate list keep
their loaded entry verbatim. -/
theorem c9_ledger_monotone (env : Env) (persisted : String → Option String)
    (cs : List Candidate) (hSave : env.saveResult = none) :
    ∃ L, (backup_run env false persisted cs).savedLedger = some L
      ∧ (∀ p, (persisted p).isSome → (L p).isSome)
      ∧ (∀ p, p ∉ cs.map Candidate.absPath → L p = persisted p) := by
  obtain ⟨-, -, -, -, e5, e6⟩ := runLoop_effects
    (rfl : runLoop env false persisted cs.length 1 (initState persisted) cs = _)
  refine ⟨_, backup_run_savedLedger_ok hSave, ?_, ?_⟩
  · intro p hp
    exact e6 p hp
  · intro p hp
    exact e5 p (fun c' hc' he => hp (he ▸ List.mem_map_of_mem _ hc'))

/-- Witness for C9 at a concrete input: a stale entry for path `"old"`
survives a run over candidate `"a"`. -/
theorem c9_ledger_monotone_witness :
    envW.saveResult = none
    ∧ (∃ L, (backup_run envW false pwOld [⟨"a", "M"⟩]).savedLedger = some L
        ∧ (∀ p, (pwOld p).isSome → (L p).isSome)
        ∧ (∀ p, p ∉ [(⟨"a", "M"⟩ : Candidate)].map Candidate.absPath → L p = pwOld p)) :=
  ⟨rfl, c9_ledger_monotone envW pwOld [⟨"a", "M"⟩] rfl⟩

/-- C6 counterexample: a dry run over two identical-content files processes
two files but records only one progress sample — the duplicate-skip file
`continue`s past the statistics block (lines 385 vs 436-450), so progress
is not updated after every processed file. -/
theorem c6_progress_counterexample :
    (backup_run envW true pwEmpty [⟨"a", "M"⟩, ⟨"b", "M"⟩]).filesProcessed = 2
    ∧ (backup_run envW true pwEmpty [⟨"a", "M"⟩, ⟨"b", "M"⟩]).outcomes.map
        (fun x => x.2)
        = [some (.dryUploaded "2026/10/12/M/a"),
           some (.skippedDuplicateContent "2026/10/12/M/a")]
    ∧ (backup_run envW true pwEmpty [⟨"a", "M"⟩, ⟨"b", "M"⟩]).progressSamples.length
        = 1 := by
  refine ⟨?_, ?_, ?_⟩ <;> decide

/-- C6 as amended: the progress statistic (elapsed time plus the linear
ETA `elapsed / filesProcessedSoFar * totalCandidates`, recorded as
`mkSample`) is appended exactly after candidates that reach the transfer
stage — uploaded, dry-uploaded, or upload-failed — while hash-failed,
duplicate-skipped and unchanged-skipped candidates leave the samples
untouched, because their branches `continue` before the statistics block. -/
theorem c6_progress_amended (env : Env) (dryRun : Bool)
    (persisted : String → Option String) (totalFiles idx : Nat) (st : RunState)
    (c : Candidate) (hSeen : c.absPath ∉ st.seenPaths) :
    (∀ e, env.hashResult c.absPath = .error e →
      (processFile env dryRun persisted totalFiles idx st c).1.progressSamples
        = st.progressSamples)
    ∧ (∀ h k, env.hashResult c.absPath = .ok h → st.contentHashToKey h = some k →
      (processFile env dryRun persisted totalFiles idx st c).1.progressSamples
        = st.progressSamples)
    ∧ (∀ h, env.hashResult c.absPath = .ok h → st.contentHashToKey h = none →
        persisted c.absPath = some h →
      (processFile env dryRun persisted totalFiles idx st c).1.progressSamples
        = st.progressSamples)
    ∧ (∀ h, env.hashResult c.absPath = .ok h → st.contentHashToKey h = none →
        ¬ persisted c.absPath = some h →
      (processFile env dryRun persisted totalFiles idx st c).1.progressSamples
        = st.progressSamples
          ++ [mkSample env totalFiles idx (st.processedFiles + 1)]) := by
  refine ⟨?_, ?_, ?_, ?_⟩
  · intro e hh
    rw [processFile_hashError hSeen hh]
  · intro h k hh hm
    rw [processFile_dup hSeen hh hm]
  · intro h hh hm hl
    rw [processFile_unchanged hSeen hh hm hl]
  · intro h hh hm hl
    cases dryRun
    · rcases hu : env.uploadResult c.absPath (s3KeyFor env idx c) with _ | e
      · rw [processFile_upload hSeen hh hm hl hu]
      · rw [processFile_uploadFail hSeen hh hm hl hu]
    · rw [processFile_dryUpload hSeen hh hm hl]

/-- Witness for the amended C6 at a concrete input (the dry-upload leg). -/
theorem c6_progress_amended_witness :
    ((⟨"a", "M"⟩ : Candidate).absPath ∉ (initState pwEmpty).seenPaths)
    ∧ (∀ h, envW.hashResult "a" = .ok h → (initState pwEmpty).contentHashToKey h = none →
        ¬ pwEmpty "a" = some h →
      (processFile envW true pwEmpty 1 1 (initState pwEmpty) ⟨"a", "M"⟩).1.progressSamples
        = (initState pwEmpty).progressSamples
          ++ [mkSample envW 1 1 ((initState pwEmpty).processedFiles + 1)]) :=
  ⟨by decide,
    (c6_progress_amended envW true pwEmpty 1 1 (initState pwEmpty) ⟨"a", "M"⟩
      (by decide)).2.2.2⟩

/-- Environment whose ledger save fails. -/
def envSaveFail : Env := { envW with saveResult := some "disk full" }

/-- C8 counterexample: a non-dry run with no candidates, no interruption and
no per-file errors, whose ledger save fails, exits with code 2 — the save
error lands in `run_manifest["errors"]` (line 470) and line 650 only tests
that list and the interrupted flag, so exit 0 is not equivalent to "no
interruption and no per-file errors". -/
theorem c8_exit_code_counterexample :
    (backup_run envSaveFail false pwEmpty []).interrupted = false
    ∧ (backup_run envSaveFail false pwEmpty []).outcomes = []
    ∧ (backup_run envSaveFail false pwEmpty []).manifestErrors = [.saveDb "disk full"]
    ∧ exit_code (backup_run envSaveFail false pwEmpty []) = 2 := by
  refine ⟨?_, ?_, ?_, ?_⟩ <;> decide

/-- An outcome stream contributes no error entries exactly when none of its
outcomes is failed. -/
theorem countFailed_eq_zero {outs : List (Candidate × Option Outcome)} :
    countFailed outs = 0 ↔ ∀ x ∈ outs, ∀ o, x.2 = some o → o.isFailed = false := by
  rw [countFailed, List.sum_eq_zero_iff]
  constructor
  · intro h x hx o ho
    have h2 := h _ (List.mem_map_of_mem _ hx)
    rw [ho] at h2
    simpa [failWeight] using h2
  · intro h n hn
    obtain ⟨x, hx, he⟩ := List.mem_map.mp hn
    subst he
    rcases hx2 : x.2 with _ | o
    · simp [failWeight]
    · have := h x hx o hx2
      simp [failWeight, this]

/-- Line 650 unfolded: exit code `0` is equivalent to a clear interrupted
flag and an empty error list. -/
theorem exit_code_eq_zero_iff {r : RunResult} :
    exit_code r = 0 ↔ r.interrupted = false ∧ r.manifestErrors = [] := by
  rcases hr : r.manifestErrors with _ | ⟨e, es⟩ <;>
    rcases hi : r.interrupted <;> simp [exit_code, hr, hi]

/-- C8 as amended: the exit code is `0` exactly when no signal arrived, no
per-file outcome failed, and — in non-dry-run mode — the ledger save also
succeeded; any recorded error (per-file or ledger-save) or interruption
gives exit code `2` (the only value line 651 produces otherwise). -/
theorem c8_exit_code_amended (env : Env) (dryRun : Bool)
    (persisted : String → Option String) (cs : List Candidate) :
    exit_code (backup_run env dryRun persisted cs) = 0
      ↔ env.interruptTime = none
        ∧ (∀ x ∈ (backup_run env dryRun persisted cs).outcomes,
            ∀ o, x.2 = some o → o.isFailed = false)
        ∧ (dryRun = true ∨ env.saveResult = none) := by
  have hlen := runLoop_errors_length
    (rfl : runLoop env dryRun persisted cs.length 1 (initState persisted) cs = _)
  have hiff : (env.interruptTime.isSome = false) ↔ env.interruptTime = none := by
    rcases env.interruptTime <;> simp
  have herr : (runLoop env dryRun persisted cs.length 1 (initState persisted) cs).1.errors = []
      ↔ (∀ x ∈ (runLoop env dryRun persisted cs.length 1 (initState persisted) cs).2.1,
          ∀ o, x.2 = some o → o.isFailed = false) := by
    rw [← countFailed_eq_zero]
    constructor
    · intro h
      have h2 := hlen
      rw [h] at h2
      simpa [initState] using h2.symm
    · intro h
      have h2 : (runLoop env dryRun persisted cs.length 1 (initState persisted) cs).1.errors.length = 0 := by
        rw [hlen, h]
        rfl
      exact List.length_eq_zero.mp h2
  rw [exit_code_eq_zero_iff, backup_run_interrupted, backup_run_outcomes, hiff]
  cases dryRun
  · rcases hs : env.saveResult with _ | e
    · rw [backup_run_manifestErrors_saveOk hs, herr]
      exact ⟨fun ⟨a, b⟩ => ⟨a, b, Or.inr rfl⟩, fun ⟨a, b, _⟩ => ⟨a, b⟩⟩
    · rw [backup_run_manifestErrors_saveFail hs]
      constructor
      · rintro ⟨-, he⟩
        exact absurd he (by simp)
      · rintro ⟨-, -, hor⟩
        rcases hor with h | h
        · exact absurd h (by simp)
        · exact absurd h (by simp)
  · rw [backup_run_manifestErrors_dry, herr]
    exact ⟨fun ⟨a, b⟩ => ⟨a, b, Or.inl rfl⟩, fun ⟨a, b, _⟩ => ⟨a, b⟩⟩

/-- The first-occurrence deduplication never leaves two equal pairs. -/
theorem dedupFirstOcc_core (xs : List (String × String)) :
    ∀ acc : List (String × String), acc.Nodup →
      (xs.foldl (fun acc x => if x ∈ acc then acc else acc ++ [x]) acc).Nodup
      ∧ (∀ x, x ∈ xs.foldl (fun acc x => if x ∈ acc then acc else acc ++ [x]) acc
          ↔ x ∈ acc ∨ x ∈ xs) := by
  induction xs with
  | nil =>
    intro acc hacc
    exact ⟨hacc, fun x => by simp⟩
  | cons y ys ih =>
    intro acc hacc
    simp only [List.foldl_cons]
    by_cases hy : y ∈ acc
    · rw [if_pos hy]
      obtain ⟨h1, h2⟩ := ih acc hacc
      refine ⟨h1, fun x => ?_⟩
      rw [h2]
      constructor
      · rintro (h | h)
        · exact Or.inl h
        · exact Or.inr (List.mem_cons_of_mem _ h)
      · rintro (h | h)
        · exact Or.inl h
        · rcases List.mem_cons.mp h with he | he
          · exact Or.inl (he ▸ hy)
          · exact Or.inr he
    · rw [if_neg hy]
      have hacc2 : (acc ++ [y]).Nodup := by
        rw [List.nodup_append]
        exact ⟨hacc, List.nodup_singleton y, by simpa [List.disjoint_singleton] using hy⟩
      obtain ⟨h1, h2⟩ := ih _ hacc2
      refine ⟨h1, fun x => ?_⟩
      rw [h2]
      simp [List.mem_append, List.mem_cons, or_assoc]

/-- `list(dict.fromkeys(...))` yields pairwise-distinct pairs. -/
theorem dedupFirstOcc_nodup (xs : List (String × String)) :
    (dedupFirstOcc xs).Nodup :=
  (dedupFirstOcc_core xs [] List.nodup_nil).1

/-- `list(dict.fromkeys(...))` keeps exactly the elements of its input. -/
theorem dedupFirstOcc_mem (xs : List (String × String)) (x : String × String) :
    x ∈ dedupFirstOcc xs ↔ x ∈ xs := by
  rw [dedupFirstOcc, (dedupFirstOcc_core xs [] List.nodup_nil).2 x]
  simp

/-- Scan environment exhibiting overlapping source roots and a walk whose
enumeration order is descending. -/
def scanEnvBad : ScanEnv :=
  { sourceDrives := [("c:\\", "MAIN"), ("c:\\users", "OTHER")]
    rootExists := fun _ => true
    allowedRoots := fun _ => ["c:\\users\\desktop"]
    walkFiles := fun _ => ["c:\\users\\desktop\\b", "c:\\users\\desktop\\a"] }

/-- C5 counterexample: the candidate list the engine consumes (scan output
after line 315's `dict.fromkeys`) is neither sorted nor deduplicated by
path alone — it keeps filesystem enumeration order and keeps one entry per
`(path, label)` pair, so overlapping roots yield the same path twice. -/
theorem c5_scanner_counterexample :
    dedupFirstOcc (gather_candidate_files scanEnvBad)
      = [("c:\\users\\desktop\\b", "MAIN"), ("c:\\users\\desktop\\a", "MAIN"),
         ("c:\\users\\desktop\\b", "OTHER"), ("c:\\users\\desktop\\a", "OTHER")]
    ∧ isSortedBy (fun a b => strLe a.1 b.1)
        (dedupFirstOcc (gather_candidate_files scanEnvBad)) = false
    ∧ ¬ ((dedupFirstOcc (gather_candidate_files scanEnvBad)).map Prod.fst).Nodup := by
  refine ⟨?_, ?_, ?_⟩ <;> decide

/-- C5 as amended: for every scan environment the candidate list is
deduplicated by `(normalized path, drive label)` pair — no pair occurs
twice, and no pair is gained or lost — in first-occurrence enumeration
order rather than sorted order. -/
theorem c5_scanner_amended (senv : ScanEnv) :
    (dedupFirstOcc (gather_candidate_files senv)).Nodup
    ∧ ∀ x, x ∈ dedupFirstOcc (gather_candidate_files senv)
        ↔ x ∈ gather_candidate_files senv :=
  ⟨dedupFirstOcc_nodup _, fun x => dedupFirstOcc_mem _ x⟩

section Run1

variable {env : Env} {dryRun : Bool} {persisted : String → Option String}
variable {totalFiles idx : Nat} {st : RunState} {c : Candidate}
variable {cs : List Candidate}

/-- One loop-body step preserves the run-1 invariant: every seen path whose
hash succeeds has its final content hash in the in-memory ledger copy, and
every unseen path still carries its loaded ledger entry — provided uploads
never fail. -/
theorem processFile_good_step
    (hUp : ∀ k, env.uploadResult c.absPath k = none)
    (hGood : ∀ p h, env.hashResult p = .ok h → p ∈ st.seenPaths →
      st.updatedHashes p = some h)
    (hJ : ∀ p, p ∉ st.seenPaths → st.updatedHashes p = persisted p) :
    (∀ p h, env.hashResult p = .ok h →
      p ∈ (processFile env dryRun persisted totalFiles idx st c).1.seenPaths →
      (processFile env dryRun persisted totalFiles idx st c).1.updatedHashes p = some h)
    ∧ (∀ p, p ∉ (processFile env dryRun persisted totalFiles idx st c).1.seenPaths →
      (processFile env dryRun persisted totalFiles idx st c).1.updatedHashes p = persisted p)
    ∧ c.absPath ∈ (processFile env dryRun persisted totalFiles idx st c).1.seenPaths := by
  by_cases hSeen : c.absPath ∈ st.seenPaths
  · rw [processFile_seen hSeen]
    exact ⟨hGood, hJ, hSeen⟩
  · rcases hh : env.hashResult c.absPath with e | h
    · rw [processFile_hashError hSeen hh]
      refine ⟨?_, ?_, List.mem_cons_self _ _⟩
      · intro p h hph hmem
        rcases List.mem_cons.mp hmem with he | he
        · subst he; rw [hph] at hh; cases hh
        · exact hGood p h hph he
      · intro p hp
        exact hJ p (fun hmem => hp (List.mem_cons_of_mem _ hmem))
    · rcases hm : st.contentHashToKey h with _ | k
      · by_cases hl : persisted c.absPath = some h
        · rw [processFile_unchanged hSeen hh hm hl]
          refine ⟨?_, ?_, List.mem_cons_self _ _⟩
          · intro p h' hph hmem
            rcases List.mem_cons.mp hmem with he | he
            · subst he
              rw [hph] at hh
              cases hh
              rw [hJ _ hSeen, hl]
            · exact hGood p h' hph he
          · intro p hp
            exact hJ p (fun hmem => hp (List.mem_cons_of_mem _ hmem))
        · cases dryRun
          · rw [processFile_upload hSeen hh hm hl (hUp _)]
            refine ⟨?_, ?_, List.mem_cons_self _ _⟩
            · intro p h' hph hmem
              rcases List.mem_cons.mp hmem with he | he
              · subst he
                rw [hph] at hh
                cases hh
                simp [updateMap]
              · have hne : p ≠ c.absPath := fun hpe => hSeen (hpe ▸ he)
                simpa [updateMap, hne] using hGood p h' hph he
            · intro p hp
              have hne : p ≠ c.absPath := fun hpe => hp (hpe ▸ List.mem_cons_self _ _)
              have hp2 : p ∉ st.seenPaths := fun hmem => hp (List.mem_cons_of_mem _ hmem)
              simpa [updateMap, hne] using hJ p hp2
          · rw [processFile_dryUpload hSeen hh hm hl]
            refine ⟨?_, ?_, List.mem_cons_self _ _⟩
            · intro p h' hph hmem
              rcases List.mem_cons.mp hmem with he | he
              · subst he
                rw [hph] at hh
                cases hh
                simp [updateMap]
              · have hne : p ≠ c.absPath := fun hpe => hSeen (hpe ▸ he)
                simpa [updateMap, hne] using hGood p h' hph he
            · intro p hp
              have hne : p ≠ c.absPath := fun hpe => hp (hpe ▸ List.mem_cons_self _ _)
              have hp2 : p ∉ st.seenPaths := fun hmem => hp (List.mem_cons_of_mem _ hmem)
              simpa [updateMap, hne] using hJ p hp2
      · rw [processFile_dup hSeen hh hm]
        refine ⟨?_, ?_, List.mem_cons_self _ _⟩
        · intro p h' hph hmem
          rcases List.mem_cons.mp hmem with he | he
          · subst he
            rw [hph] at hh
            cases hh
            simp [updateMap]
          · have hne : p ≠ c.absPath := fun hpe => hSeen (hpe ▸ he)
            simpa [updateMap, hne] using hGood p h' hph he
        · intro p hp
          have hne : p ≠ c.absPath := fun hpe => hp (hpe ▸ List.mem_cons_self _ _)
          have hp2 : p ∉ st.seenPaths := fun hmem => hp (List.mem_cons_of_mem _ hmem)
          simpa [updateMap, hne] using hJ p hp2

/-- Run-1 invariant over the whole loop: with successful uploads and no
interruption, after the run every candidate path is seen, and every seen
path whose hash succeeds carries that hash in the final in-memory ledger. -/
theorem runLoop_good
    (hUp : ∀ p k, env.uploadResult p k = none)
    (hNoInt : env.interruptTime = none) :
    ∀ (cs : List Candidate) (idx : Nat) (st : RunState),
      (∀ p h, env.hashResult p = .ok h → p ∈ st.seenPaths → st.updatedHashes p = some h) →
      (∀ p, p ∉ st.seenPaths → st.updatedHashes p = persisted p) →
      (∀ p h, env.hashResult p = .ok h →
        p ∈ (runLoop env dryRun persisted totalFiles idx st cs).1.seenPaths →
        (runLoop env dryRun persisted totalFiles idx st cs).1.updatedHashes p = some h)
      ∧ (∀ c' ∈ cs, c'.absPath ∈ (runLoop env dryRun persisted totalFiles idx st cs).1.seenPaths) := by
  intro cs
  induction cs with
  | nil =>
    intro idx st hGood hJ
    rw [runLoop_nil]
    exact ⟨hGood, fun c' hc' => absurd hc' (List.not_mem_nil c')⟩
  | cons c cs ih =>
    intro idx st hGood hJ
    rw [runLoop_cons (interruptFlagAt_none hNoInt)]
    obtain ⟨g1, g2, g3⟩ := processFile_good_step (hUp c.absPath) hGood hJ
    obtain ⟨l1, l2⟩ := ih (idx + 1) (processFile env dryRun persisted totalFiles idx st c).1 g1 g2
    refine ⟨l1, ?_⟩
    intro c' hc'
    rcases List.mem_cons.mp hc' with he | he
    · rw [he]
      exact ((runLoop_effects (r := runLoop env dryRun persisted totalFiles (idx + 1)
        (processFile env dryRun persisted totalFiles idx st c).1 cs) rfl).1 _ g3).1
    · exact l2 c' he

end Run1

section Run2

variable {env : Env} {persisted : String → Option String} {totalFiles : Nat}

/-- Run-2 loop behaviour: when every candidate's hash succeeds and already
equals its persisted ledger entry, and the same-run dedup map is empty, the
loop keeps the dedup map empty, uploads nothing, and every recorded outcome
is `SkippedUnchanged`. -/
theorem runLoop_run2 {cs : List Candidate}
    (hAll : ∀ c' ∈ cs, ∃ h, env.hashResult c'.absPath = .ok h
      ∧ persisted c'.absPath = some h) :
    ∀ (idx : Nat) (st : RunState)
      (r : RunState × List (Candidate × Option Outcome) × List RemoteCall),
      (∀ h, st.contentHashToKey h = none) →
      runLoop env false persisted totalFiles idx st cs = r →
      r.1.uploadedKeys = st.uploadedKeys
      ∧ (∀ x ∈ r.2.1, ∀ o, x.2 = some o → o = .skippedUnchanged) := by
  induction cs with
  | nil =>
    intro idx st r hc hr
    rw [runLoop_nil] at hr
    subst hr
    exact ⟨rfl, fun x hx => absurd hx (List.not_mem_nil x)⟩
  | cons c cs ih =>
    intro idx st r hc hr
    by_cases hint : interruptFlagAt env idx = true
    · rw [runLoop_stop hint] at hr
      subst hr
      exact ⟨rfl, fun x hx => absurd hx (List.not_mem_nil x)⟩
    · rw [runLoop_cons (Bool.not_eq_true _ ▸ hint)] at hr
      subst hr
      have hAllTail : ∀ c' ∈ cs, ∃ h, env.hashResult c'.absPath = .ok h
          ∧ persisted c'.absPath = some h :=
        fun c' hc' => hAll c' (List.mem_cons_of_mem _ hc')
      obtain ⟨h, hh, hl⟩ := hAll c (List.mem_cons_self c cs)
      by_cases hSeen : c.absPath ∈ st.seenPaths
      · have hstep := @processFile_seen env false persisted totalFiles idx st c hSeen
        have hc1 : ∀ h', (processFile env false persisted totalFiles idx st c).1.contentHashToKey h' = none := by
          rw [hstep]; exact hc
        obtain ⟨ih1, ih2⟩ := ih hAllTail (idx + 1)
          (processFile env false persisted totalFiles idx st c).1 _ hc1 rfl
        refine ⟨?_, ?_⟩
        · rw [ih1, hstep]
        · intro x hx
          rcases List.mem_cons.mp hx with he | he
          · intro o ho
            rw [he] at ho
            rw [hstep] at ho
            cases ho
          · exact ih2 x he
      · have hstep := @processFile_unchanged env false persisted totalFiles idx st c h
          hSeen hh (hc h) hl
        have hc1 : ∀ h', (processFile env false persisted totalFiles idx st c).1.contentHashToKey h' = none := by
          rw [hstep]; exact hc
        obtain ⟨ih1, ih2⟩ := ih hAllTail (idx + 1)
          (processFile env false persisted totalFiles idx st c).1 _ hc1 rfl
        refine ⟨?_, ?_⟩
        · rw [ih1, hstep]
        · intro x hx
          rcases List.mem_cons.mp hx with he | he
          · intro o ho
            rw [he] at ho
            rw [hstep] at ho
            cases ho
            rfl
          · exact ih2 x he

end Run2

/-- C2: idempotence.  Run one (non-dry, uninterrupted, all hashes and
uploads succeeding, save succeeding) saves a ledger `L`; run two over the
same candidates with the same file contents (same hash results), loading
`L`, uploads nothing: every recorded outcome of run two is
`SkippedUnchanged`, regardless of interruption or upload behaviour in run
two. -/
theorem c2_idempotence (env env2 : Env) (persisted : String → Option String)
    (cs : List Candidate)
    (hNoInt : env.interruptTime = none)
    (hHash : ∀ c ∈ cs, ∃ h, env.hashResult c.absPath = .ok h)
    (hUp : ∀ p k, env.uploadResult p k = none)
    (hSave : env.saveResult = none)
    (hSame : env2.hashResult = env.hashResult) :
    ∃ L, (backup_run env false persisted cs).savedLedger = some L
      ∧ (backup_run env2 false L cs).uploadedKeys = []
      ∧ ∀ x ∈ (backup_run env2 false L cs).outcomes,
          ∀ o, x.2 = some o → o = .skippedUnchanged := by
  have hG := @runLoop_good env false persisted cs.length hUp hNoInt cs 1 (initState persisted)
    (fun p h _ hmem => absurd hmem (List.not_mem_nil p)) (fun p _ => rfl)
  have hAll : ∀ c' ∈ cs, ∃ h, env2.hashResult c'.absPath = .ok h
      ∧ (runLoop env false persisted cs.length 1 (initState persisted) cs).1.updatedHashes c'.absPath
        = some h := by
    intro c' hc'
    obtain ⟨h, hh⟩ := hHash c' hc'
    exact ⟨h, by rw [hSame]; exact hh, hG.1 c'.absPath h hh (hG.2 c' hc')⟩
  obtain ⟨h1, h2⟩ := @runLoop_run2 env2
    (runLoop env false persisted cs.length 1 (initState persisted) cs).1.updatedHashes
    cs.length cs hAll 1
    (initState (runLoop env false persisted cs.length 1 (initState persisted) cs).1.updatedHashes)
    _ (fun h => rfl) rfl
  exact ⟨(runLoop env false persisted cs.length 1 (initState persisted) cs).1.updatedHashes,
    backup_run_savedLedger_ok hSave, h1, h2⟩

/-- Witness for C2 at a concrete input. -/
theorem c2_idempotence_witness :
    (envW.interruptTime = none
      ∧ (∀ c ∈ [(⟨"a", "M"⟩ : Candidate)], ∃ h, envW.hashResult c.absPath = .ok h)
      ∧ (∀ p k, envW.uploadResult p k = none)
      ∧ envW.saveResult = none)
    ∧ (∃ L, (backup_run envW false pwEmpty [⟨"a", "M"⟩]).savedLedger = some L
        ∧ (backup_run envW false L [⟨"a", "M"⟩]).uploadedKeys = []
        ∧ ∀ x ∈ (backup_run envW false L [⟨"a", "M"⟩]).outcomes,
            ∀ o, x.2 = some o → o = .skippedUnchanged) :=
  ⟨⟨rfl, fun _ _ => ⟨"H1", rfl⟩, fun _ _ => rfl, rfl⟩,
    c2_idempotence envW envW pwEmpty [⟨"a", "M"⟩] rfl (fun _ _ => ⟨"H1", rfl⟩)
      (fun _ _ => rfl) rfl rfl⟩

section C1

variable {env : Env} {dryRun : Bool} {persisted : String → Option String}
variable {totalFiles : Nat}

/-- Tail of the cross-path dedup argument: once some file with content hash
`H1` has registered remote key `keyA` in the same-run dedup map and path
`pa` holds `H1` in the ledger copy, processing `mid ++ b :: post` (where
`b` hashes to `H1`, is not yet seen, not shadowed inside `mid`, and `mid`
cannot register another `H1` entry because the map already has one) yields
the duplicate-skip outcome for `b` referencing `keyA`, and both ledger
entries end at `H1`. -/
theorem c1_after_a {idx : Nat} {st : RunState} {pa : String} {b : Candidate}
    {mid post : List Candidate} {H1 keyA : String}
    (hNoInt : env.interruptTime = none)
    (hB : env.hashResult b.absPath = .ok H1)
    (hPaSeen : pa ∈ st.seenPaths)
    (hPaUpd : st.updatedHashes pa = some H1)
    (hCmap : st.contentHashToKey H1 = some keyA)
    (hBseen : b.absPath ∉ st.seenPaths)
    (hBmid : b.absPath ∉ mid.map Candidate.absPath) :
    ∃ outsMid outsPost,
      (runLoop env dryRun persisted totalFiles idx st (mid ++ b :: post)).2.1
        = outsMid ++ (b, some (.skippedDuplicateContent keyA)) :: outsPost
      ∧ outsMid.length = mid.length
      ∧ (runLoop env dryRun persisted totalFiles idx st (mid ++ b :: post)).1.updatedHashes pa
          = some H1
      ∧ (runLoop env dryRun persisted totalFiles idx st (mid ++ b :: post)).1.updatedHashes b.absPath
          = some H1 := by
  rw [runLoop_append hNoInt]
  obtain ⟨m1, m2, m3, -, -, -⟩ := runLoop_effects
    (rfl : runLoop env dryRun persisted totalFiles idx st mid = _)
  have hPaMid := m1 pa hPaSeen
  have hCmapMid : (runLoop env dryRun persisted totalFiles idx st mid).1.contentHashToKey H1
      = some keyA := m3 H1 keyA hCmap
  have hBseenMid : b.absPath ∉
      (runLoop env dryRun persisted totalFiles idx st mid).1.seenPaths := by
    intro hmem
    rcases m2 b.absPath hmem with h | h
    · exact hBseen h
    · exact hBmid h
  rw [runLoop_cons (interruptFlagAt_none hNoInt)]
  rw [processFile_dup hBseenMid hB hCmapMid]
  obtain ⟨p1, -, -, -, -, -⟩ := runLoop_effects
    (rfl : runLoop env dryRun persisted totalFiles (idx + mid.length + 1)
      ({ (runLoop env dryRun persisted totalFiles idx st mid).1 with
          seenPaths := b.absPath ::
            (runLoop env dryRun persisted totalFiles idx st mid).1.seenPaths
          processedFiles := (runLoop env dryRun persisted totalFiles idx st mid).1.processedFiles + 1
          duplicateSkips := (runLoop env dryRun persisted totalFiles idx st mid).1.duplicateSkips
            ++ [(env.maskPath b.absPath, env.maskKey keyA)]
          updatedHashes := updateMap
            (runLoop env dryRun persisted totalFiles idx st mid).1.updatedHashes b.absPath H1 })
      post = _)
  refine ⟨(runLoop env dryRun persisted totalFiles idx st mid).2.1, _, rfl,
    runLoop_length hNoInt rfl, ?_, ?_⟩
  · have hne : pa ≠ b.absPath := fun he => hBseenMid (he ▸ hPaMid.1)
    have := (p1 pa (List.mem_cons_of_mem _ hPaMid.1)).2
    rw [this]
    show updateMap _ b.absPath H1 pa = some H1
    rw [updateMap, if_neg hne]
    exact hPaMid.2.trans hPaUpd
  · have := (p1 b.absPath (List.mem_cons_self _ _)).2
    rw [this]
    show updateMap _ b.absPath H1 b.absPath = some H1
    rw [updateMap, if_pos rfl]

end C1

section C1b

variable {env : Env} {dryRun : Bool} {persisted : String → Option String}
variable {totalFiles : Nat}

/-- Cross-path dedup over a candidate segment `a :: (mid ++ b :: post)`
starting from a state where `a`, `b` are unseen, the dedup map has no entry
for their common hash `H1`, and the ledger has none for `a`: `a` is
transferred (really or dry), `b` is duplicate-skipped against `a`'s key,
and both ledger entries end at `H1`. -/
theorem c1_segment {idx : Nat} {st : RunState} {a b : Candidate}
    {mid post : List Candidate} {H1 : String}
    (hNoInt : env.interruptTime = none)
    (hA : env.hashResult a.absPath = .ok H1)
    (hB : env.hashResult b.absPath = .ok H1)
    (hAseen : a.absPath ∉ st.seenPaths)
    (hBseen : b.absPath ∉ st.seenPaths)
    (hAB : a.absPath ≠ b.absPath)
    (hBmid : b.absPath ∉ mid.map Candidate.absPath)
    (hCmap : st.contentHashToKey H1 = none)
    (hPa : persisted a.absPath = none)
    (hUpA : dryRun = false → env.uploadResult a.absPath (s3KeyFor env idx a) = none) :
    ∃ outsMid outsPost,
      (runLoop env dryRun persisted totalFiles idx st (a :: (mid ++ b :: post))).2.1
        = (a, some (if dryRun then Outcome.dryUploaded (s3KeyFor env idx a)
              else Outcome.uploaded (s3KeyFor env idx a))) ::
            (outsMid ++ (b, some (.skippedDuplicateContent (s3KeyFor env idx a))) :: outsPost)
      ∧ outsMid.length = mid.length
      ∧ (runLoop env dryRun persisted totalFiles idx st
          (a :: (mid ++ b :: post))).1.updatedHashes a.absPath = some H1
      ∧ (runLoop env dryRun persisted totalFiles idx st
          (a :: (mid ++ b :: post))).1.updatedHashes b.absPath = some H1 := by
  have hPa' : ¬ persisted a.absPath = some H1 := by simp [hPa]
  rw [runLoop_cons (interruptFlagAt_none hNoInt)]
  cases dryRun
  · have hstep := @processFile_upload env persisted totalFiles idx st a H1 hAseen hA hCmap hPa' (hUpA rfl)
    have hSeenA : a.absPath ∈ (processFile env false persisted totalFiles idx st a).1.seenPaths := by
      rw [hstep]; exact List.mem_cons_self _ _
    have hUpdA : (processFile env false persisted totalFiles idx st a).1.updatedHashes a.absPath
        = some H1 := by
      rw [hstep]; show updateMap _ a.absPath H1 a.absPath = some H1
      rw [updateMap, if_pos rfl]
    have hCmapA : (processFile env false persisted totalFiles idx st a).1.contentHashToKey H1
        = some (s3KeyFor env idx a) := by
      rw [hstep]; show updateMap _ H1 (s3KeyFor env idx a) H1 = _
      rw [updateMap, if_pos rfl]
    have hBseenA : b.absPath ∉ (processFile env false persisted totalFiles idx st a).1.seenPaths := by
      rw [hstep]
      intro hmem
      rcases List.mem_cons.mp hmem with he | he
      · exact hAB he.symm
      · exact hBseen he
    have hOutA : (processFile env false persisted totalFiles idx st a).2.1
        = some (.uploaded (s3KeyFor env idx a)) := by rw [hstep]
    obtain ⟨outsMid, outsPost, h1, h2, h3, h4⟩ :=
      @c1_after_a env false persisted totalFiles (idx + 1) _ _ _ _ _ _ _
        hNoInt hB hSeenA hUpdA hCmapA hBseenA hBmid
    refine ⟨outsMid, outsPost, ?_, h2, h3, h4⟩
    rw [hOutA, h1]
    simp
  · have hstep := @processFile_dryUpload env persisted totalFiles idx st a H1 hAseen hA hCmap hPa'
    have hSeenA : a.absPath ∈ (processFile env true persisted totalFiles idx st a).1.seenPaths := by
      rw [hstep]; exact List.mem_cons_self _ _
    have hUpdA : (processFile env true persisted totalFiles idx st a).1.updatedHashes a.absPath
        = some H1 := by
      rw [hstep]; show updateMap _ a.absPath H1 a.absPath = some H1
      rw [updateMap, if_pos rfl]
    have hCmapA : (processFile env true persisted totalFiles idx st a).1.contentHashToKey H1
        = some (s3KeyFor env idx a) := by
      rw [hstep]; show updateMap _ H1 (s3KeyFor env idx a) H1 = _
      rw [updateMap, if_pos rfl]
    have hBseenA : b.absPath ∉ (processFile env true persisted totalFiles idx st a).1.seenPaths := by
      rw [hstep]
      intro hmem
      rcases List.mem_cons.mp hmem with he | he
      · exact hAB he.symm
      · exact hBseen he
    have hOutA : (processFile env true persisted totalFiles idx st a).2.1
        = some (.dryUploaded (s3KeyFor env idx a)) := by rw [hstep]
    obtain ⟨outsMid, outsPost, h1, h2, h3, h4⟩ :=
      @c1_after_a env true persisted totalFiles (idx + 1) _ _ _ _ _ _ _
        hNoInt hB hSeenA hUpdA hCmapA hBseenA hBmid
    refine ⟨outsMid, outsPost, ?_, h2, h3, h4⟩
    rw [hOutA, h1]
    simp

end C1b

/-- C1: cross-path same-run dedup.  Over an empty ledger, for a candidate
list `pre ++ a :: (mid ++ b :: post)` in which `a` and `b` are the first
two files (distinct paths) hashing to `H1` — no file of `pre` hashes to
`H1`, and `b`'s path does not occur in `mid` — an uninterrupted run with
`a`'s upload succeeding gives `a` the single `Uploaded` (or, dry-run,
`DryUploaded`) outcome with key `s3KeyFor env (pre.length + 1) a`, gives
`b` the `SkippedDuplicateContent` outcome referencing exactly that key, and
ends with the ledger mapping both paths to `H1`. -/
theorem c1_cross_path_dedup (env : Env) (dryRun : Bool)
    (pre mid post : List Candidate) (a b : Candidate) (H1 : String)
    (hNoInt : env.interruptTime = none)
    (hA : env.hashResult a.absPath = .ok H1)
    (hB : env.hashResult b.absPath = .ok H1)
    (hAB : a.absPath ≠ b.absPath)
    (hPre : ∀ c ∈ pre, ∀ h', env.hashResult c.absPath = .ok h' → h' ≠ H1)
    (hBmid : b.absPath ∉ mid.map Candidate.absPath)
    (hUpA : dryRun = false →
      env.uploadResult a.absPath (s3KeyFor env (pre.length + 1) a) = none) :
    ∃ outsPre outsMid outsPost,
      (backup_run env dryRun (fun _ => none)
          (pre ++ a :: (mid ++ b :: post))).outcomes
        = outsPre ++ (a, some (if dryRun
              then Outcome.dryUploaded (s3KeyFor env (pre.length + 1) a)
              else Outcome.uploaded (s3KeyFor env (pre.length + 1) a))) ::
            (outsMid ++ (b, some (.skippedDuplicateContent
              (s3KeyFor env (pre.length + 1) a))) :: outsPost)
      ∧ outsPre.length = pre.length
      ∧ outsMid.length = mid.length
      ∧ (backup_run env dryRun (fun _ => none)
          (pre ++ a :: (mid ++ b :: post))).finalLedger a.absPath = some H1
      ∧ (backup_run env dryRun (fun _ => none)
          (pre ++ a :: (mid ++ b :: post))).finalLedger b.absPath = some H1 := by
  rw [backup_run_outcomes, backup_run_finalLedger, runLoop_append hNoInt,
    Nat.add_comm 1 pre.length]
  obtain ⟨-, e2, -, e4, -, -⟩ := runLoop_effects
    (rfl : runLoop env dryRun (fun _ => none)
      (pre ++ a :: (mid ++ b :: post)).length 1
      (initState (fun _ => none)) pre = _)
  have hCmapPre : (runLoop env dryRun (fun _ => none)
      (pre ++ a :: (mid ++ b :: post)).length 1
      (initState (fun _ => none)) pre).1.contentHashToKey H1 = none := e4 H1 hPre
  have hAseenPre : a.absPath ∉ (runLoop env dryRun (fun _ => none)
      (pre ++ a :: (mid ++ b :: post)).length 1
      (initState (fun _ => none)) pre).1.seenPaths := by
    intro hmem
    rcases e2 _ hmem with h | h
    · exact absurd h (List.not_mem_nil _)
    · obtain ⟨c', hc', he⟩ := List.mem_map.mp h
      exact hPre c' hc' H1 (by rw [he]; exact hA) rfl
  have hBseenPre : b.absPath ∉ (runLoop env dryRun (fun _ => none)
      (pre ++ a :: (mid ++ b :: post)).length 1
      (initState (fun _ => none)) pre).1.seenPaths := by
    intro hmem
    rcases e2 _ hmem with h | h
    · exact absurd h (List.not_mem_nil _)
    · obtain ⟨c', hc', he⟩ := List.mem_map.mp h
      exact hPre c' hc' H1 (by rw [he]; exact hB) rfl
  obtain ⟨outsMid, outsPost, h1, h2, h3, h4⟩ :=
    @c1_segment env dryRun (fun _ => none) (pre ++ a :: (mid ++ b :: post)).length
      (pre.length + 1) _ a b mid post H1 hNoInt hA hB
      hAseenPre hBseenPre hAB hBmid hCmapPre rfl hUpA
  refine ⟨(runLoop env dryRun (fun _ => none)
      (pre ++ a :: (mid ++ b :: post)).length 1
      (initState (fun _ => none)) pre).2.1, outsMid, outsPost, ?_,
    runLoop_length hNoInt rfl, h2, h3, h4⟩
  rw [h1]

/-- Witness for C1 at a concrete input (`pre = mid = post = []`, real run). -/
theorem c1_cross_path_dedup_witness :
    (envW.interruptTime = none
      ∧ envW.hashResult "a" = .ok "H1"
      ∧ envW.hashResult "b" = .ok "H1"
      ∧ ("a" : String) ≠ "b")
    ∧ ∃ outsPre outsMid outsPost,
        (backup_run envW false (fun _ => none)
            ([] ++ (⟨"a", "M"⟩ : Candidate) :: ([] ++ (⟨"b", "M"⟩ : Candidate) :: []))).outcomes
          = outsPre ++ ((⟨"a", "M"⟩ : Candidate), some (if false
                then Outcome.dryUploaded (s3KeyFor envW (([] : List Candidate).length + 1) ⟨"a", "M"⟩)
                else Outcome.uploaded (s3KeyFor envW (([] : List Candidate).length + 1) ⟨"a", "M"⟩))) ::
              (outsMid ++ ((⟨"b", "M"⟩ : Candidate), some (.skippedDuplicateContent
                (s3KeyFor envW (([] : List Candidate).length + 1) ⟨"a", "M"⟩))) :: outsPost)
          ∧ outsPre.length = ([] : List Candidate).length
          ∧ outsMid.length = ([] : List Candidate).length
          ∧ (backup_run envW false (fun _ => none)
              ([] ++ (⟨"a", "M"⟩ : Candidate) :: ([] ++ (⟨"b", "M"⟩ : Candidate) :: []))).finalLedger "a"
              = some "H1"
          ∧ (backup_run envW false (fun _ => none)
              ([] ++ (⟨"a", "M"⟩ : Candidate) :: ([] ++ (⟨"b", "M"⟩ : Candidate) :: []))).finalLedger "b"
              = some "H1" :=
  ⟨⟨rfl, rfl, rfl, by decide⟩,
    c1_cross_path_dedup envW false [] [] [] ⟨"a", "M"⟩ ⟨"b", "M"⟩ "H1" rfl rfl rfl
      (by decide) (fun c hc => absurd hc (List.not_mem_nil c)) (by decide) (fun _ => rfl)⟩

section C4a

variable {env : Env} {dryRun : Bool} {persisted : String → Option String}
variable {totalFiles idx : Nat} {st : RunState} {c : Candidate}
variable {cs : List Candidate}

/-- The error list only ever grows across a loop-body step. -/
theorem processFile_errors_mono :
    ∃ tail, (processFile env dryRun persisted totalFiles idx st c).1.errors
      = st.errors ++ tail := by
  obtain ⟨-, -, -, -, -, -, pe7, pe8, -⟩ :=
    processFile_effects (r := processFile env dryRun persisted totalFiles idx st c) rfl
  rcases ho : (processFile env dryRun persisted totalFiles idx st c).2.1 with _ | o
  · refine ⟨[], ?_⟩
    rw [pe7 (by intro o h; rw [ho] at h; cases h)]
    simp
  · by_cases hf : o.isFailed = true
    · obtain ⟨en, he⟩ := pe8 o ho hf
      exact ⟨[en], he⟩
    · refine ⟨[], ?_⟩
      rw [pe7 (by intro o' h; rw [ho] at h; cases h; simpa using hf)]
      simp

/-- The error list only ever grows across the loop. -/
theorem runLoop_errors_mono
    {r : RunState × List (Candidate × Option Outcome) × List RemoteCall}
    (hr : runLoop env dryRun persisted totalFiles idx st cs = r) :
    ∃ tail, r.1.errors = st.errors ++ tail := by
  induction cs generalizing idx st r with
  | nil =>
    rw [runLoop_nil] at hr
    subst hr
    exact ⟨[], by simp⟩
  | cons c cs ih =>
    by_cases hint : interruptFlagAt env idx = true
    · rw [runLoop_stop hint] at hr
      subst hr
      exact ⟨[], by simp⟩
    · rw [runLoop_cons (Bool.not_eq_true _ ▸ hint)] at hr
      subst hr
      obtain ⟨t1, h1⟩ := @processFile_errors_mono env dryRun persisted totalFiles idx st c
      obtain ⟨t2, h2⟩ := @ih (idx + 1)
        (processFile env dryRun persisted totalFiles idx st c).1 _ rfl
      exact ⟨t1 ++ t2, by rw [h2, h1, List.append_assoc]⟩

/-- Loop-body errors survive into the manifest error list, whatever the
save step does. -/
theorem backup_run_errors_mem {en : ErrEntry}
    (h : en ∈ (runLoop env dryRun persisted cs.length 1 (initState persisted) cs).1.errors) :
    en ∈ (backup_run env dryRun persisted cs).manifestErrors := by
  cases dryRun
  · rcases hs : env.saveResult with _ | e2
    · rw [backup_run_manifestErrors_saveOk hs]
      exact h
    · rw [backup_run_manifestErrors_saveFail hs]
      exact List.mem_append_left _ h
  · rw [backup_run_manifestErrors_dry]
    exact h

/-- Failure isolation over the segment `u :: post`: the failing file `u`
(hash failure, or upload failure when its content is not deduplicated and
not unchanged) gets a `Failed` outcome carrying its error reason and an
error entry, its ledger entry is untouched, and the loop continues through
`post`, whose files all get non-failed outcomes. -/
theorem c4_segment {u : Candidate} {post : List Candidate} {e : String}
    (hNoInt : env.interruptTime = none)
    (hndPost : (post.map Candidate.absPath).Nodup)
    (hUpost : u.absPath ∉ post.map Candidate.absPath)
    (hpostSeen : ∀ c' ∈ post, c'.absPath ∉ st.seenPaths)
    (hOKpost : ∀ c' ∈ post, (∃ h, env.hashResult c'.absPath = .ok h)
        ∧ (dryRun = true ∨ ∀ k, env.uploadResult c'.absPath k = none))
    (hUseen : u.absPath ∉ st.seenPaths)
    (hFail : env.hashResult u.absPath = .error e
      ∨ (dryRun = false ∧ ∃ hU, env.hashResult u.absPath = .ok hU
          ∧ ¬ persisted u.absPath = some hU
          ∧ st.contentHashToKey hU = none
          ∧ env.uploadResult u.absPath (s3KeyFor env idx u) = some e)) :
    ∃ fo outsPost,
      (runLoop env dryRun persisted totalFiles idx st (u :: post)).2.1
        = (u, some fo) :: outsPost
      ∧ (fo = .failedHash e ∨ fo = .failedUpload e)
      ∧ outsPost.length = post.length
      ∧ (∀ x ∈ outsPost, ∃ o, x.2 = some o ∧ o.isFailed = false)
      ∧ (runLoop env dryRun persisted totalFiles idx st (u :: post)).1.updatedHashes u.absPath
          = st.updatedHashes u.absPath
      ∧ ErrEntry.file (env.maskPath u.absPath) e
          ∈ (runLoop env dryRun persisted totalFiles idx st (u :: post)).1.errors := by
  have key : ∃ fo, (fo = Outcome.failedHash e ∨ fo = Outcome.failedUpload e)
      ∧ (processFile env dryRun persisted totalFiles idx st u).2.1 = some fo
      ∧ (processFile env dryRun persisted totalFiles idx st u).1.updatedHashes u.absPath
          = st.updatedHashes u.absPath
      ∧ (processFile env dryRun persisted totalFiles idx st u).1.errors
          = st.errors ++ [.file (env.maskPath u.absPath) e]
      ∧ (processFile env dryRun persisted totalFiles idx st u).1.seenPaths
          = u.absPath :: st.seenPaths := by
    rcases hFail with hherr | ⟨hdry, hU, hhU, hpU, hcmapU, huU⟩
    · rw [processFile_hashError hUseen hherr]
      exact ⟨.failedHash e, Or.inl rfl, rfl, rfl, rfl, rfl⟩
    · subst hdry
      rw [processFile_uploadFail hUseen hhU hcmapU hpU huU]
      exact ⟨.failedUpload e, Or.inr rfl, rfl, rfl, rfl, rfl⟩
  obtain ⟨fo, hfo, hOutU, hUpdU, hErrU, hSeenU⟩ := key
  rw [runLoop_cons (interruptFlagAt_none hNoInt)]
  have hpostSeenU : ∀ c' ∈ post,
      c'.absPath ∉ (processFile env dryRun persisted totalFiles idx st u).1.seenPaths := by
    intro c' hc'
    rw [hSeenU]
    intro hmem
    rcases List.mem_cons.mp hmem with he | he
    · exact hUpost (he ▸ List.mem_map_of_mem Candidate.absPath hc')
    · exact hpostSeen c' hc' he
  have hNonF := runLoop_nonfailed hndPost hpostSeenU hOKpost
    (rfl : runLoop env dryRun persisted totalFiles (idx + 1)
      (processFile env dryRun persisted totalFiles idx st u).1 post = _)
  obtain ⟨-, -, -, -, l5, -⟩ := runLoop_effects
    (rfl : runLoop env dryRun persisted totalFiles (idx + 1)
      (processFile env dryRun persisted totalFiles idx st u).1 post = _)
  obtain ⟨tail, htail⟩ := runLoop_errors_mono
    (rfl : runLoop env dryRun persisted totalFiles (idx + 1)
      (processFile env dryRun persisted totalFiles idx st u).1 post = _)
  refine ⟨fo, _, by rw [hOutU], hfo, runLoop_length hNoInt rfl, hNonF, ?_, ?_⟩
  · have h5 := l5 u.absPath
      (fun c' hc' he => hUpost (he ▸ List.mem_map_of_mem Candidate.absPath hc'))
    rw [h5, hUpdU]
  · rw [htail, hErrU]
    simp

end C4a

/-- C4: failure isolation.  For an uninterrupted run over candidates with
pairwise-distinct paths `pre ++ u :: post` in which every file except `u`
hashes fine and (unless dry) uploads fine, while `u` either fails hashing
or (in a real run, with content neither deduplicated against `pre` nor
unchanged in the ledger) fails its upload with reason `e`: `u` gets a
`Failed` outcome carrying `e` plus a manifest error entry, its ledger entry
is neither added nor updated, and the run still visits everything — the
other `pre.length + post.length` files all get non-failed outcomes. -/
theorem c4_failure_isolation (env : Env) (dryRun : Bool)
    (persisted : String → Option String) (pre post : List Candidate)
    (u : Candidate) (e : String)
    (hNoInt : env.interruptTime = none)
    (hND : ((pre ++ u :: post).map Candidate.absPath).Nodup)
    (hOK : ∀ c ∈ pre ++ post, (∃ h, env.hashResult c.absPath = .ok h)
        ∧ (dryRun = true ∨ ∀ k, env.uploadResult c.absPath k = none))
    (hFail : env.hashResult u.absPath = .error e
      ∨ (dryRun = false ∧ ∃ hU, env.hashResult u.absPath = .ok hU
          ∧ ¬ persisted u.absPath = some hU
          ∧ env.uploadResult u.absPath (s3KeyFor env (pre.length + 1) u) = some e
          ∧ ∀ c ∈ pre, ∀ h', env.hashResult c.absPath = .ok h' → h' ≠ hU)) :
    ∃ outsPre fo outsPost,
      (backup_run env dryRun persisted (pre ++ u :: post)).outcomes
        = outsPre ++ (u, some fo) :: outsPost
      ∧ outsPre.length = pre.length
      ∧ outsPost.length = post.length
      ∧ (fo = .failedHash e ∨ fo = .failedUpload e)
      ∧ (∀ x ∈ outsPre ++ outsPost, ∃ o, x.2 = some o ∧ o.isFailed = false)
      ∧ (backup_run env dryRun persisted (pre ++ u :: post)).finalLedger u.absPath
          = persisted u.absPath
      ∧ ErrEntry.file (env.maskPath u.absPath) e
          ∈ (backup_run env dryRun persisted (pre ++ u :: post)).manifestErrors := by
  have hND' := hND
  rw [List.map_append, List.map_cons] at hND'
  obtain ⟨hndPre, hndRest, hdisj⟩ := List.nodup_append.mp hND'
  obtain ⟨hUpost, hndPost⟩ := List.nodup_cons.mp hndRest
  have hUpre : u.absPath ∉ pre.map Candidate.absPath :=
    fun hmem => hdisj hmem (List.mem_cons_self _ _)
  have hdisjPost : ∀ p, p ∈ pre.map Candidate.absPath → p ∉ post.map Candidate.absPath :=
    fun p hp hq => hdisj hp (List.mem_cons_of_mem _ hq)
  obtain ⟨-, q2, -, q4, q5, -⟩ := runLoop_effects
    (rfl : runLoop env dryRun persisted (pre ++ u :: post).length 1
      (initState persisted) pre = _)
  have hseenPre : ∀ p, p ∈ (runLoop env dryRun persisted (pre ++ u :: post).length 1
      (initState persisted) pre).1.seenPaths → p ∈ pre.map Candidate.absPath :=
    fun p hp => (q2 p hp).resolve_left (List.not_mem_nil p)
  have hUseenPre : u.absPath ∉ (runLoop env dryRun persisted (pre ++ u :: post).length 1
      (initState persisted) pre).1.seenPaths :=
    fun hmem => hUpre (hseenPre _ hmem)
  have hpostSeenPre : ∀ c' ∈ post, c'.absPath ∉
      (runLoop env dryRun persisted (pre ++ u :: post).length 1
        (initState persisted) pre).1.seenPaths :=
    fun c' hc' hmem =>
      hdisjPost _ (hseenPre _ hmem) (List.mem_map_of_mem Candidate.absPath hc')
  have hOKpre : ∀ c ∈ pre, (∃ h, env.hashResult c.absPath = .ok h)
      ∧ (dryRun = true ∨ ∀ k, env.uploadResult c.absPath k = none) :=
    fun c hc => hOK c (List.mem_append_left _ hc)
  have hOKpost : ∀ c ∈ post, (∃ h, env.hashResult c.absPath = .ok h)
      ∧ (dryRun = true ∨ ∀ k, env.uploadResult c.absPath k = none) :=
    fun c hc => hOK c (List.mem_append_right _ hc)
  have hNSpre : ∀ c' ∈ pre, c'.absPath ∉ (initState persisted).seenPaths :=
    fun c' _ hmem => absurd hmem (List.not_mem_nil _)
  have hPreNonF := runLoop_nonfailed hndPre hNSpre hOKpre
    (rfl : runLoop env dryRun persisted (pre ++ u :: post).length 1
      (initState persisted) pre = _)
  have hFail' : env.hashResult u.absPath = .error e
      ∨ (dryRun = false ∧ ∃ hU, env.hashResult u.absPath = .ok hU
          ∧ ¬ persisted u.absPath = some hU
          ∧ (runLoop env dryRun persisted (pre ++ u :: post).length 1
              (initState persisted) pre).1.contentHashToKey hU = none
          ∧ env.uploadResult u.absPath (s3KeyFor env (pre.length + 1) u) = some e) := by
    rcases hFail with h | ⟨hdry, hU, h1, h2, h3, h4⟩
    · exact Or.inl h
    · exact Or.inr ⟨hdry, hU, h1, h2, q4 hU h4, h3⟩
  obtain ⟨fo, outsPost, s1, s2, s3, s4, s5, s6⟩ :=
    @c4_segment env dryRun persisted (pre ++ u :: post).length (pre.length + 1) _ u post e
      hNoInt hndPost hUpost hpostSeenPre hOKpost hUseenPre hFail'
  refine ⟨(runLoop env dryRun persisted (pre ++ u :: post).length 1
      (initState persisted) pre).2.1, fo, outsPost, ?_,
    runLoop_length hNoInt rfl, s3, s2, ?_, ?_, ?_⟩
  · rw [backup_run_outcomes, runLoop_append hNoInt, Nat.add_comm 1 pre.length, s1]
  · intro x hx
    rcases List.mem_append.mp hx with h | h
    · exact hPreNonF x h
    · exact s4 x h
  · rw [backup_run_finalLedger, runLoop_append hNoInt, Nat.add_comm 1 pre.length, s5]
    exact q5 u.absPath
      (fun c' hc' he => hUpre (he ▸ List.mem_map_of_mem Candidate.absPath hc'))
  · apply backup_run_errors_mem
    rw [runLoop_append hNoInt, Nat.add_comm 1 pre.length]
    exact s6

/-- Witness for C4 at a concrete input: one unreadable file among two. -/
theorem c4_failure_isolation_witness :
    (envFailB.interruptTime = none
      ∧ envFailB.hashResult "b" = .error "unreadable")
    ∧ ∃ outsPre fo outsPost,
        (backup_run envFailB false pwEmpty
            ([⟨"a", "M"⟩] ++ (⟨"b", "M"⟩ : Candidate) :: [])).outcomes
          = outsPre ++ ((⟨"b", "M"⟩ : Candidate), some fo) :: outsPost
        ∧ outsPre.length = [(⟨"a", "M"⟩ : Candidate)].length
        ∧ outsPost.length = ([] : List Candidate).length
        ∧ (fo = .failedHash "unreadable" ∨ fo = .failedUpload "unreadable")
        ∧ (∀ x ∈ outsPre ++ outsPost, ∃ o, x.2 = some o ∧ o.isFailed = false)
        ∧ (backup_run envFailB false pwEmpty
            ([⟨"a", "M"⟩] ++ (⟨"b", "M"⟩ : Candidate) :: [])).finalLedger "b"
            = pwEmpty "b"
        ∧ ErrEntry.file (envFailB.maskPath "b") "unreadable"
            ∈ (backup_run envFailB false pwEmpty
                ([⟨"a", "M"⟩] ++ (⟨"b", "M"⟩ : Candidate) :: [])).manifestErrors :=
  ⟨⟨rfl, rfl⟩,
    c4_failure_isolation envFailB false pwEmpty [⟨"a", "M"⟩] [] ⟨"b", "M"⟩ "unreadable"
      rfl (by decide)
      (by
        intro c hc
        refine ⟨⟨"H1", ?_⟩, Or.inr fun k => rfl⟩
        rcases List.mem_append.mp hc with h | h
        · rcases List.mem_cons.mp h with he | he
          · rw [he]; rfl
          · exact absurd he (List.not_mem_nil c)
        · exact absurd h (List.not_mem_nil c))
      (Or.inl rfl)⟩

end AWSBackUp
